import Mathlib

/-!
Verification development for the SGI text-library manager's embedding-backed
search core. The JavaScript sources are shallowly embedded: JavaScript numbers
are idealized as real numbers where scores are computed, and as abstract
serializable values where they only flow through (CSV/JSON persistence);
stateful loops become structural recursions threading explicit state; thrown
exceptions become `Except` values; the externally provided embedding service
becomes an explicit call-indexed function argument.
-/

deriving instance DecidableEq for Except

namespace SGI

/-! ## Batch embedding coordinator (src/aicoreEmbeddingClient.js)

`generateBatchEmbeddings(texts, options)` partitions `texts` into consecutive
batches of `batchSize`, processes them strictly sequentially, retries a batch
on a rate-limit-class failure up to `maxRetries` attempts with a wait of
`retries * 30` seconds before each retry, rethrows any other failure
unchanged, and fails with a typed exhaustion error when retries run out.
The provider is modelled as a function from the call number (how many
attempts were made before) and the batch to a typed response; the
string-matching classification of rate-limit errors in the source
(`error.message.includes('TooManyRequest')`) is abstracted into the
`rateLimited` constructor. -/

/-- One response of the embedding provider for one batch attempt. -/
inductive EmbedResp (V : Type) where
  | ok (vs : List V)
  | rateLimited
  | failed (msg : String)
deriving DecidableEq

/-- Typed errors of the coordinator.  `exhausted` is the
`Failed to generate embeddings after max retries due to rate limiting` throw;
`provider` is a non-rate-limit error rethrown unchanged (the source attaches
no batch index); `fuelOut` is unreachable for the fuel the coordinator
supplies (see `runBatches`). -/
inductive CoordErr where
  | exhausted
  | provider (msg : String)
  | fuelOut
deriving DecidableEq

/-- Instrumentation: the waits the coordinator performs (`setTimeout` calls). -/
inductive WaitEvent where
  | initialWait (ms : Nat)
  | retryWait (seconds : Nat)
  | interBatch (ms : Nat)
deriving DecidableEq

/-- The `options` argument of `generateBatchEmbeddings`. -/
structure BatchOptions where
  batchSize : Nat
  delayMs : Nat
  maxRetries : Nat
  initialWaitMs : Nat
deriving DecidableEq

/-- The source's defaults: batchSize 100, delayMs 1000, maxRetries 5,
initialWaitMs 10000. -/
def defaultOptions : BatchOptions := BatchOptions.mk 100 1000 5 10000

/-- Run instrumentation: number of attempts made so far and the wait log. -/
structure RunState where
  calls : Nat
  log : List WaitEvent
deriving DecidableEq

/-- An embedding provider: given the number of attempts already made and a
batch of texts, respond.  Texts `τ` and vectors `V` are abstract. -/
def Provider (τ V : Type) := Nat → List τ → EmbedResp V

/-- The validation throw of `generateEmbedding` for an empty input array. -/
def emptyInputMsg : String := "Valid text input(s) required for embedding generation"

/-- The `while (retries < maxRetries && !batchEmbeddings)` loop for one batch.
`retriesLeft` is `maxRetries - retries`, `retryIdx` the current value of the
`retries` counter.  On a rate-limited response the loop logs a wait of
`(retries + 1) * 30` seconds (the source increments `retries` first and waits
`retries * 30`); a failed response is rethrown at once; when the retry budget
is exhausted the typed exhaustion error is thrown. -/
def tryBatch {τ V : Type} (p : Provider τ V) (batch : List τ) :
    Nat → Nat → RunState → Except CoordErr (List V) × RunState
  | 0, _, st => (Except.error CoordErr.exhausted, st)
  | retriesLeft + 1, retryIdx, st =>
    if batch.isEmpty then
      (Except.error (CoordErr.provider emptyInputMsg), st)
    else
      match p st.calls batch with
      | EmbedResp.ok vs => (Except.ok vs, RunState.mk (st.calls + 1) st.log)
      | EmbedResp.rateLimited =>
          tryBatch p batch retriesLeft (retryIdx + 1)
            (RunState.mk (st.calls + 1)
              (st.log ++ [WaitEvent.retryWait ((retryIdx + 1) * 30)]))
      | EmbedResp.failed e =>
          (Except.error (CoordErr.provider e), RunState.mk (st.calls + 1) st.log)

/-- The `for (let i = 0; i < texts.length; i += batchSize)` loop.  Structural
fuel makes the recursion total; `generateBatchEmbeddings` passes
`texts.length`, which suffices whenever `batchSize ≥ 1`; for `batchSize = 0`
the first batch is empty and the empty-input validation error aborts the run
first, exactly as in the source. -/
def runBatches {τ V : Type} (p : Provider τ V) (opts : BatchOptions) :
    Nat → List τ → RunState → Except CoordErr (List V) × RunState
  | _, [], st => (Except.ok [], st)
  | 0, _ :: _, st => (Except.error CoordErr.fuelOut, st)
  | fuel + 1, t :: ts, st =>
    match tryBatch p ((t :: ts).take opts.batchSize) opts.maxRetries 0 st with
    | (Except.error e, st1) => (Except.error e, st1)
    | (Except.ok vs, st1) =>
      let rest := (t :: ts).drop opts.batchSize
      let st2 :=
        if rest.isEmpty ∨ opts.delayMs = 0 then st1
        else RunState.mk st1.calls (st1.log ++ [WaitEvent.interBatch opts.delayMs])
      match runBatches p opts fuel rest st2 with
      | (Except.ok vss, st3) => (Except.ok (vs ++ vss), st3)
      | (Except.error e, st3) => (Except.error e, st3)

/-- The warm-up wait performed before the first batch when `initialWaitMs > 0`. -/
def initLog (opts : BatchOptions) : List WaitEvent :=
  if opts.initialWaitMs = 0 then [] else [WaitEvent.initialWait opts.initialWaitMs]

/-- `generateBatchEmbeddings(texts, options)`: optional warm-up wait, then the
sequential batch loop starting with zero attempts made. -/
def generateBatchEmbeddings {τ V : Type} (p : Provider τ V) (opts : BatchOptions)
    (texts : List τ) : Except CoordErr (List V) × RunState :=
  runBatches p opts texts.length texts (RunState.mk 0 (initLog opts))

/-! ### Lemmas about the coordinator -/

/-- If every successful provider response embeds its batch elementwise by `f`,
then a successful `tryBatch` result is the batch mapped through `f`. -/
theorem tryBatch_ok_map {τ V : Type} (p : Provider τ V) (f : τ → V)
    (hp : ∀ c b vs, p c b = EmbedResp.ok vs → vs = b.map f)
    (rl : Nat) :
    ∀ (ri : Nat) (st : RunState) (batch : List τ) (vs : List V) (st1 : RunState),
      tryBatch p batch rl ri st = (Except.ok vs, st1) → vs = batch.map f := by
  induction rl with
  | zero => intro ri st batch vs st1 h; simp [tryBatch] at h
  | succ n ih =>
    intro ri st batch vs st1 h
    by_cases hb : batch.isEmpty
    · simp [tryBatch, hb] at h
    · rw [tryBatch, if_neg hb] at h
      cases hres : p st.calls batch with
      | ok ws =>
        rw [hres] at h
        have hw : ws = vs := by
          have := congrArg Prod.fst h
          simpa using this
        exact hw ▸ hp st.calls batch ws hres
      | rateLimited =>
        rw [hres] at h
        exact ih _ _ _ _ _ h
      | failed e =>
        rw [hres] at h
        have := congrArg Prod.fst h
        simp at this

/-- If every successful provider response embeds its batch elementwise by `f`,
a successful run of the batch loop returns exactly the input mapped through
`f`, in order. -/
theorem runBatches_ok_map {τ V : Type} (p : Provider τ V) (f : τ → V) (opts : BatchOptions)
    (hp : ∀ c b vs, p c b = EmbedResp.ok vs → vs = b.map f)
    (fuel : Nat) :
    ∀ (texts : List τ) (st st1 : RunState) (vs : List V),
      runBatches p opts fuel texts st = (Except.ok vs, st1) → vs = texts.map f := by
  induction fuel with
  | zero =>
    intro texts st st1 vs h
    cases texts with
    | nil => simpa [runBatches] using congrArg Prod.fst h
    | cons t ts =>
      have := congrArg Prod.fst h
      simp [runBatches] at this
  | succ n ih =>
    intro texts st st1 vs h
    cases texts with
    | nil => simpa [runBatches] using congrArg Prod.fst h
    | cons t ts =>
      rw [runBatches] at h
      cases htry : tryBatch p ((t :: ts).take opts.batchSize) opts.maxRetries 0 st with
      | mk res st2 =>
        cases res with
        | error e =>
          rw [htry] at h
          have := congrArg Prod.fst h
          simp at this
        | ok ws =>
          rw [htry] at h
          simp only at h
          cases hrec : runBatches p opts n ((t :: ts).drop opts.batchSize)
              (if ((t :: ts).drop opts.batchSize).isEmpty ∨ opts.delayMs = 0 then st2
               else RunState.mk st2.calls (st2.log ++ [WaitEvent.interBatch opts.delayMs])) with
          | mk res2 st3 =>
            cases res2 with
            | error e =>
              rw [hrec] at h
              have := congrArg Prod.fst h
              simp at this
            | ok wss =>
              rw [hrec] at h
              have hv : ws ++ wss = vs := by
                have := congrArg Prod.fst h
                simpa using this
              have h1 : ws = ((t :: ts).take opts.batchSize).map f :=
                tryBatch_ok_map p f hp _ _ _ _ _ _ htry
              have h2 : wss = ((t :: ts).drop opts.batchSize).map f := ih _ _ _ _ hrec
              rw [← hv, h1, h2, ← List.map_append, List.take_append_drop]

/-- **C2**: for every input list of texts and every configuration, whenever
`generateBatchEmbeddings` returns successfully, the returned list has exactly
one vector per input text and position `i` holds the embedding of `texts[i]`
(the provider's embedding function `f` applied to it), in input order — the
coordinator never returns a partial or reordered result; every failure
surfaces as an `Except.error` instead. -/
theorem c2_generateBatch_full_ordered_output {τ V : Type} (p : Provider τ V) (f : τ → V)
    (opts : BatchOptions) (texts : List τ) (out : List V) (st1 : RunState)
    (hp : ∀ c b vs, p c b = EmbedResp.ok vs → vs = b.map f)
    (h : generateBatchEmbeddings p opts texts = (Except.ok out, st1)) :
    out = texts.map f ∧ out.length = texts.length := by
  have hout : out = texts.map f := runBatches_ok_map p f opts hp _ _ _ _ _ h
  exact ⟨hout, by rw [hout, List.length_map]⟩

/-- Concrete provider for the C2 witness: embeds a number `n` as `n + 1`. -/
def providerSucc : Provider Nat Nat := fun _ b => EmbedResp.ok (b.map (fun n => n + 1))

/-- Witness for C2 at a concrete input: run the coordinator with the default
configuration on `[1, 2, 3]` and a provider that always succeeds. -/
theorem c2_generateBatch_full_ordered_output_witness :
    [2, 3, 4] = List.map (fun n => n + 1) [1, 2, 3] ∧
      ([2, 3, 4] : List Nat).length = [1, 2, 3].length :=
  c2_generateBatch_full_ordered_output providerSucc (fun n => n + 1) defaultOptions
    [1, 2, 3] [2, 3, 4] (RunState.mk 1 [WaitEvent.initialWait 10000])
    (by intro c b vs h; injection h with h2; exact h2.symm)
    (by decide)

/-- Reshaping the retry-wait log: a first wait at retry index `ri + 1`
followed by the waits for `R` further retries is the wait list of `R + 1`
retries starting at retry index `ri`. -/
theorem range_map_head (g : Nat → WaitEvent) (R : Nat) :
    (List.range (R + 1)).map g = g 0 :: (List.range R).map (fun i => g (i + 1)) := by
  rw [List.range_succ_eq_map, List.map_cons, List.map_map]
  rfl

theorem retryLog_shift (ri R : Nat) (l : List WaitEvent) :
    (l ++ [WaitEvent.retryWait ((ri + 1) * 30)]) ++
      (List.range R).map (fun i => WaitEvent.retryWait ((ri + 1 + i + 1) * 30)) =
    l ++ (List.range (R + 1)).map (fun i => WaitEvent.retryWait ((ri + i + 1) * 30)) := by
  rw [range_map_head (fun i => WaitEvent.retryWait ((ri + i + 1) * 30)) R,
    List.append_assoc, List.singleton_append]
  have hmap : ((List.range R).map (fun i => WaitEvent.retryWait ((ri + 1 + i + 1) * 30))) =
      (List.range R).map (fun i => WaitEvent.retryWait ((ri + (i + 1) + 1) * 30)) := by
    refine List.map_congr_left ?_
    intro i _
    have harith : ri + 1 + i + 1 = ri + (i + 1) + 1 := by omega
    show WaitEvent.retryWait ((ri + 1 + i + 1) * 30) = WaitEvent.retryWait ((ri + (i + 1) + 1) * 30)
    rw [harith]
  rw [hmap]

/-- A batch whose provider rate-limits the first `R` attempts and succeeds on
attempt `R + 1` (within the retry budget) completes with exactly `R + 1`
attempts, logging a wait of `(retryIdx + i + 1) * 30` seconds before retry
`i`. -/
theorem tryBatch_rateLimited_then_ok {τ V : Type} (p : Provider τ V) (batch : List τ)
    (vs : List V) (hb : ¬ batch.isEmpty) (R : Nat) :
    ∀ (rl ri : Nat) (st : RunState),
      (∀ k, k < R → p (st.calls + k) batch = EmbedResp.rateLimited) →
      p (st.calls + R) batch = EmbedResp.ok vs →
      R < rl →
      tryBatch p batch rl ri st =
        (Except.ok vs, RunState.mk (st.calls + R + 1)
          (st.log ++ (List.range R).map (fun i => WaitEvent.retryWait ((ri + i + 1) * 30)))) := by
  induction R with
  | zero =>
    intro rl ri st hfail hok hlt
    cases rl with
    | zero => exact absurd hlt (by omega)
    | succ n =>
      rw [tryBatch, if_neg hb]
      have h1 : p st.calls batch = EmbedResp.ok vs := by simpa using hok
      rw [h1]
      simp
  | succ R ih =>
    intro rl ri st hfail hok hlt
    cases rl with
    | zero => exact absurd hlt (by omega)
    | succ n =>
      rw [tryBatch, if_neg hb]
      have h0 : p st.calls batch = EmbedResp.rateLimited := by
        simpa using hfail 0 (by omega)
      rw [h0]
      have hrec := ih n (ri + 1)
        (RunState.mk (st.calls + 1) (st.log ++ [WaitEvent.retryWait ((ri + 1) * 30)]))
        (by intro k hk; simpa [Nat.add_assoc, Nat.add_comm 1 k] using hfail (k + 1) (by omega))
        (by simpa [Nat.add_assoc, Nat.add_comm 1 R] using hok)
        (by omega)
      show tryBatch p batch n (ri + 1)
          (RunState.mk (st.calls + 1) (st.log ++ [WaitEvent.retryWait ((ri + 1) * 30)])) = _
      rw [hrec]
      refine congrArg (Prod.mk (Except.ok vs)) ?_
      show RunState.mk (st.calls + 1 + R + 1)
          ((st.log ++ [WaitEvent.retryWait ((ri + 1) * 30)]) ++
            (List.range R).map (fun i => WaitEvent.retryWait ((ri + 1 + i + 1) * 30))) = _
      refine congrArg₂ RunState.mk (by omega) ?_
      exact retryLog_shift ri R st.log

/-- A batch whose provider rate-limits every attempt exhausts the retry
budget: all `rl` attempts are made, each preceded (after the first) by its
backoff wait, and the typed exhaustion error is raised. -/
theorem tryBatch_exhausted {τ V : Type} (p : Provider τ V) (batch : List τ)
    (hb : ¬ batch.isEmpty) :
    ∀ (rl ri : Nat) (st : RunState),
      (∀ k, k < rl → p (st.calls + k) batch = EmbedResp.rateLimited) →
      tryBatch p batch rl ri st =
        (Except.error CoordErr.exhausted, RunState.mk (st.calls + rl)
          (st.log ++ (List.range rl).map (fun i => WaitEvent.retryWait ((ri + i + 1) * 30)))) := by
  intro rl
  induction rl with
  | zero => intro ri st _; simp [tryBatch]
  | succ n ih =>
    intro ri st hfail
    rw [tryBatch, if_neg hb]
    have h0 : p st.calls batch = EmbedResp.rateLimited := by simpa using hfail 0 (by omega)
    rw [h0]
    have hrec := ih (ri + 1)
      (RunState.mk (st.calls + 1) (st.log ++ [WaitEvent.retryWait ((ri + 1) * 30)]))
      (by intro k hk; simpa [Nat.add_assoc, Nat.add_comm 1 k] using hfail (k + 1) (by omega))
    show tryBatch p batch n (ri + 1)
        (RunState.mk (st.calls + 1) (st.log ++ [WaitEvent.retryWait ((ri + 1) * 30)])) = _
    rw [hrec]
    refine congrArg (Prod.mk (Except.error CoordErr.exhausted)) ?_
    show RunState.mk (st.calls + 1 + n)
        ((st.log ++ [WaitEvent.retryWait ((ri + 1) * 30)]) ++
          (List.range n).map (fun i => WaitEvent.retryWait ((ri + 1 + i + 1) * 30))) = _
    refine congrArg₂ RunState.mk (by omega) ?_
    exact retryLog_shift ri n st.log

/-- **C3**: for a batch whose provider fails with a rate-limit-class error
exactly `R` consecutive times and then succeeds, the coordinator waits
`retryIndex * 30` seconds before each retry (retry `i + 1` waits
`(i + 1) * 30` seconds) and succeeds for that batch on attempt `R + 1` when
`R < maxRetries`; when `maxRetries ≤ R` it raises the typed exhaustion error
for the whole call after making exactly `maxRetries` attempts. -/
theorem c3_retry_backoff_policy {τ V : Type} (p : Provider τ V) (opts : BatchOptions)
    (texts : List τ) (R : Nat) (vs : List V)
    (hne : texts ≠ []) (hlen : texts.length ≤ opts.batchSize)
    (hfail : ∀ k, k < R → p k texts = EmbedResp.rateLimited)
    (hok : p R texts = EmbedResp.ok vs) :
    (R < opts.maxRetries →
      generateBatchEmbeddings p opts texts =
        (Except.ok vs, RunState.mk (R + 1)
          (initLog opts ++ (List.range R).map (fun i => WaitEvent.retryWait ((i + 1) * 30))))) ∧
    (opts.maxRetries ≤ R →
      generateBatchEmbeddings p opts texts =
        (Except.error CoordErr.exhausted, RunState.mk opts.maxRetries
          (initLog opts ++ (List.range opts.maxRetries).map
            (fun i => WaitEvent.retryWait ((i + 1) * 30))))) := by
  cases texts with
  | nil => exact absurd rfl hne
  | cons t ts =>
    have htake : (t :: ts).take opts.batchSize = t :: ts := List.take_of_length_le hlen
    have hdrop : (t :: ts).drop opts.batchSize = [] := List.drop_eq_nil_of_le hlen
    have hb : ¬ ((t :: ts).take opts.batchSize).isEmpty := by
      rw [htake]; simp
    constructor
    · intro hlt
      have htry := tryBatch_rateLimited_then_ok p ((t :: ts).take opts.batchSize) vs hb R
        opts.maxRetries 0 (RunState.mk 0 (initLog opts))
        (by intro k hk; simpa [htake] using hfail k hk)
        (by simpa [htake] using hok) hlt
      show runBatches p opts (t :: ts).length (t :: ts) (RunState.mk 0 (initLog opts)) = _
      rw [show (t :: ts).length = ts.length + 1 from rfl, runBatches, htry]
      simp [hdrop, runBatches]
    · intro hge
      have htry := tryBatch_exhausted p ((t :: ts).take opts.batchSize) hb
        opts.maxRetries 0 (RunState.mk 0 (initLog opts))
        (by intro k hk; simpa [htake] using hfail k (by omega))
      show runBatches p opts (t :: ts).length (t :: ts) (RunState.mk 0 (initLog opts)) = _
      rw [show (t :: ts).length = ts.length + 1 from rfl, runBatches, htry]
      simp

/-- Concrete provider stub for the C3 witness: rate-limits the first two
attempts, then succeeds with the vector `[9]` for every text. -/
def providerRate2 : Provider Nat Nat := fun c _ =>
  if c < 2 then EmbedResp.rateLimited else EmbedResp.ok [9]

/-- Witness for C3 at a concrete input: `R = 2` failures against the default
configuration (`maxRetries = 5`), so attempt 3 succeeds after waiting 30 and
then 60 seconds. -/
theorem c3_retry_backoff_policy_witness :
    (2 < defaultOptions.maxRetries →
      generateBatchEmbeddings providerRate2 defaultOptions [5] =
        (Except.ok [9], RunState.mk 3
          (initLog defaultOptions ++ (List.range 2).map
            (fun i => WaitEvent.retryWait ((i + 1) * 30))))) ∧
    (defaultOptions.maxRetries ≤ 2 →
      generateBatchEmbeddings providerRate2 defaultOptions [5] =
        (Except.error CoordErr.exhausted, RunState.mk defaultOptions.maxRetries
          (initLog defaultOptions ++ (List.range defaultOptions.maxRetries).map
            (fun i => WaitEvent.retryWait ((i + 1) * 30))))) :=
  c3_retry_backoff_policy providerRate2 defaultOptions [5] 2 [9]
    (by decide) (by decide)
    (by intro k hk; interval_cases k <;> rfl)
    rfl

/-- **C6 (amended)**: when the provider fails a batch's first attempt with an
error that is not rate-limit-class, the coordinator performs no retry for
that batch (exactly one further attempt is recorded), aborts the whole run
immediately (no waits are logged, no later batch is attempted), and
propagates the provider's error unchanged — the source rethrows the error
object as-is, with no batch index attached.  The first conjunct states this
for the batch loop resumed at any point `st` of a run (so for every batch);
the second specializes to a whole `generateBatchEmbeddings` call whose first
batch fails. -/
theorem c6_nonRateLimit_aborts_unchanged {τ V : Type} (p : Provider τ V)
    (opts : BatchOptions) (e : String) (hmr : 0 < opts.maxRetries) :
    (∀ (fuel : Nat) (texts : List τ) (st : RunState),
      ¬ (texts.take opts.batchSize).isEmpty →
      p st.calls (texts.take opts.batchSize) = EmbedResp.failed e →
      runBatches p opts (fuel + 1) texts st =
        (Except.error (CoordErr.provider e), RunState.mk (st.calls + 1) st.log)) ∧
    (∀ (texts : List τ),
      ¬ (texts.take opts.batchSize).isEmpty →
      p 0 (texts.take opts.batchSize) = EmbedResp.failed e →
      generateBatchEmbeddings p opts texts =
        (Except.error (CoordErr.provider e), RunState.mk 1 (initLog opts))) := by
  have hmain : ∀ (fuel : Nat) (texts : List τ) (st : RunState),
      ¬ (texts.take opts.batchSize).isEmpty →
      p st.calls (texts.take opts.batchSize) = EmbedResp.failed e →
      runBatches p opts (fuel + 1) texts st =
        (Except.error (CoordErr.provider e), RunState.mk (st.calls + 1) st.log) := by
    intro fuel texts st hb hfail
    cases texts with
    | nil => simp at hb
    | cons t ts =>
      obtain ⟨m, hm⟩ : ∃ m, opts.maxRetries = m + 1 := ⟨opts.maxRetries - 1, by omega⟩
      rw [runBatches, hm, tryBatch, if_neg hb, hfail]
  refine ⟨hmain, ?_⟩
  intro texts hb hfail
  cases texts with
  | nil => simp at hb
  | cons t ts =>
    have := hmain ts.length (t :: ts) (RunState.mk 0 (initLog opts)) hb hfail
    show runBatches p opts (t :: ts).length (t :: ts) (RunState.mk 0 (initLog opts)) = _
    rw [show (t :: ts).length = ts.length + 1 from rfl]
    exact this

/-- Witness for C6 at a concrete input: a provider that fails the very first
attempt with a non-rate-limit error aborts the whole default-configuration
run with that error, after a single attempt and no retry waits. -/
theorem c6_nonRateLimit_aborts_unchanged_witness :
    generateBatchEmbeddings (fun _ _ => EmbedResp.failed "boom" : Provider Nat Nat)
        defaultOptions [3] =
      (Except.error (CoordErr.provider "boom"), RunState.mk 1 (initLog defaultOptions)) :=
  (c6_nonRateLimit_aborts_unchanged (fun _ _ => EmbedResp.failed "boom" : Provider Nat Nat)
    defaultOptions "boom" (by decide)).2 [3] (by decide) rfl

/-- Two-batch configuration (batch size 1, no delays) used to exhibit that
the propagated error carries no batch index. -/
def optsTwoBatches : BatchOptions := BatchOptions.mk 1 0 5 0

/-- Provider that fails the first attempt (batch index 0) with a
non-rate-limit error. -/
def providerFailFirst : Provider Nat Nat := fun c _ =>
  if c = 0 then EmbedResp.failed "boom" else EmbedResp.ok [0]

/-- Provider that succeeds on the first attempt and fails the second attempt
(batch index 1) with the same non-rate-limit error. -/
def providerFailSecond : Provider Nat Nat := fun c b =>
  if c = 0 then EmbedResp.ok (b.map (fun _ => 0)) else EmbedResp.failed "boom"

/-- Counterexample to C6 as stated: the claim says the propagated error has
"the index of the failing batch attached", but the source rethrows the
provider's error object unchanged.  Concretely, on the two-batch input
`[10, 20]` a run failing at batch index 0 and a run failing at batch index 1
surface the *identical* error value — the provider's own error with nothing
attached — so no batch index is recoverable from the propagated error. -/
theorem c6_error_lacks_batch_index_counterexample :
    (generateBatchEmbeddings providerFailFirst optsTwoBatches [10, 20]).1 =
      Except.error (CoordErr.provider "boom") ∧
    (generateBatchEmbeddings providerFailSecond optsTwoBatches [10, 20]).1 =
      Except.error (CoordErr.provider "boom") := by
  exact ⟨by decide, by decide⟩

/-! ## Embedding cache validity (src/unnamed/part_001, `loadLibraryEmbeddings`)

The loader compares a persisted cache snapshot against the freshly parsed
document store: it requires matching document counts, compares the `(id,
text)` pairs of only the *first five* documents (`docs.slice(0, 5).every`),
and requires the snapshot's model identifier to equal the constant
`text-embedding-3-small`.  If the check fails the whole snapshot is
discarded and all embeddings are recomputed. -/

/-- A document as held by the store and the cache snapshot. -/
structure CDoc where
  id : String
  text : String
deriving DecidableEq

/-- The fields of the persisted cache file that the loader reads.  Embedding
components are modelled as exact rationals (JSON numbers round-trip
exactly). -/
structure CachedFile where
  docs : List CDoc
  embeddings : List (List Rat)
  model : String
  timestamp : String
deriving DecidableEq

/-- The model identifier the loader targets (`text-embedding-3-small`). -/
def targetModel : String := "text-embedding-3-small"

/-- `docs.slice(0, 5).every((doc, i) => cached.docs[i] && ids and texts
match)` — the sampling check of the source. -/
def sameDataSample (cached : CachedFile) (docs : List CDoc) : Bool :=
  (docs.take 5).enum.all fun p =>
    match cached.docs[p.1]? with
    | some c => c.id == p.2.id && c.text == p.2.text
    | none => false

/-- The loader's cache-validity decision: counts match, the first-five sample
matches, and the model identifier matches. -/
def cacheValid (cached : CachedFile) (docs : List CDoc) : Bool :=
  (cached.docs.length == docs.length) && sameDataSample cached docs
    && (cached.model == targetModel)

/-- What the loader does with the snapshot. -/
inductive CachePlan where
  | reuse (embeddings : List (List Rat))
  | recomputeAll
deriving DecidableEq

/-- If the snapshot is valid its embeddings are reused wholesale; otherwise
the entire snapshot is discarded and every position is recomputed. -/
def loadPlan (cached : CachedFile) (docs : List CDoc) : CachePlan :=
  if cacheValid cached docs then CachePlan.reuse cached.embeddings
  else CachePlan.recomputeAll

/-- A six-document store and a snapshot agreeing with it on counts, on the
first five documents, and on the model — but differing at position 5. -/
def storeSix : List CDoc :=
  [CDoc.mk "1" "a", CDoc.mk "2" "b", CDoc.mk "3" "c",
   CDoc.mk "4" "d", CDoc.mk "5" "e", CDoc.mk "6" "f"]

/-- Snapshot for the counterexample: identical to `storeSix` except that the
sixth document's text is stale. -/
def cachedSix : CachedFile :=
  CachedFile.mk
    [CDoc.mk "1" "a", CDoc.mk "2" "b", CDoc.mk "3" "c",
     CDoc.mk "4" "d", CDoc.mk "5" "e", CDoc.mk "6" "stale"]
    [[1], [1], [1], [1], [1], [1]] targetModel "t"

/-- Counterexample to C1 as stated: the claim requires the snapshot to be
accepted *iff* every document's `(id, text)` pair matches, but the source
samples only the first five documents.  `cachedSix` differs from `storeSix`
at position 5 (a stale text), yet the loader accepts it and reuses its
embeddings. -/
theorem c1_sampling_accepts_stale_cache_counterexample :
    cacheValid cachedSix storeSix = true ∧
    cachedSix.docs ≠ storeSix ∧
    loadPlan cachedSix storeSix = CachePlan.reuse cachedSix.embeddings := by
  exact ⟨by decide, by decide, by decide⟩

/-- **C1 (amended)**: the loader accepts a persisted snapshot iff the document
counts match, the `(id, text)` pairs of the first `min 5 N` documents are
identical in snapshot and store, and the snapshot's model identifier equals
the target model; whenever any of these fails the entire snapshot is
discarded and every position is recomputed, and when they all hold the
snapshot's embeddings are reused wholesale. -/
theorem c1_cache_validity_first_five (cached : CachedFile) (docs : List CDoc) :
    (cacheValid cached docs = true ↔
      (cached.docs.length = docs.length ∧
       (∀ i, i < min 5 docs.length → cached.docs[i]? = docs[i]?) ∧
       cached.model = targetModel)) ∧
    (cacheValid cached docs = false → loadPlan cached docs = CachePlan.recomputeAll) ∧
    (cacheValid cached docs = true → loadPlan cached docs = CachePlan.reuse cached.embeddings) := by
  refine ⟨⟨?_, ?_⟩, ?_, ?_⟩
  · intro h
    rw [cacheValid] at h
    simp only [Bool.and_eq_true, beq_iff_eq] at h
    obtain ⟨⟨hlen, hsame⟩, hmodel⟩ := h
    refine ⟨hlen, ?_, hmodel⟩
    intro i hi
    have hilen : i < docs.length := lt_of_lt_of_le hi (min_le_right _ _)
    have hd : docs[i]? = some (docs.get ⟨i, hilen⟩) :=
      List.getElem?_eq_some_iff.mpr ⟨hilen, rfl⟩
    have hmem : (i, docs.get ⟨i, hilen⟩) ∈ (docs.take 5).enum := by
      rw [List.mk_mem_enum_iff_getElem?,
        List.getElem?_take_of_lt (lt_of_lt_of_le hi (min_le_left _ _))]
      exact hd
    rw [sameDataSample, List.all_eq_true] at hsame
    have hx := hsame _ hmem
    rw [hd]
    have hx2 : (match cached.docs[i]? with
        | some c => c.id == (docs.get ⟨i, hilen⟩).id && c.text == (docs.get ⟨i, hilen⟩).text
        | none => false) = true := hx
    cases hc : cached.docs[i]? with
    | none =>
      rw [hc] at hx2
      simp at hx2
    | some c =>
      rw [hc] at hx2
      simp only [Bool.and_eq_true, beq_iff_eq] at hx2
      have hcd : c = docs.get ⟨i, hilen⟩ := by
        cases c with
        | mk cid ctext =>
          cases hdoc : docs.get ⟨i, hilen⟩ with
          | mk did dtext =>
            rw [hdoc] at hx2
            simp only at hx2
            rw [hx2.1, hx2.2]
      rw [hcd]
  · intro h
    obtain ⟨hlen, hall, hmodel⟩ := h
    rw [cacheValid]
    simp only [Bool.and_eq_true, beq_iff_eq]
    refine ⟨⟨hlen, ?_⟩, hmodel⟩
    rw [sameDataSample, List.all_eq_true]
    intro x hx
    obtain ⟨i, d⟩ := x
    rw [List.mk_mem_enum_iff_getElem?] at hx
    have hi5 : i < min 5 docs.length := by
      obtain ⟨hlt, -⟩ := List.getElem?_eq_some_iff.mp hx
      simpa [List.length_take] using hlt
    rw [List.getElem?_take_of_lt (lt_of_lt_of_le hi5 (min_le_left _ _))] at hx
    show (match cached.docs[i]? with
      | some c => c.id == d.id && c.text == d.text
      | none => false) = true
    rw [hall i hi5, hx]
    simp
  · intro h
    rw [loadPlan]
    simp [h]
  · intro h
    rw [loadPlan]
    simp [h]

/-- A store/snapshot pair that agrees everywhere, used as the C1 witness
input. -/
def storeTwo : List CDoc := [CDoc.mk "1" "x", CDoc.mk "2" "y"]

/-- The snapshot matching `storeTwo` exactly. -/
def cachedTwo : CachedFile := CachedFile.mk storeTwo [[1], [2]] targetModel "t"

/-- Witness for C1 (amended) at a concrete input: the fully matching
snapshot `cachedTwo` is accepted for `storeTwo` and its embeddings reused. -/
theorem c1_cache_validity_first_five_witness :
    cacheValid cachedTwo storeTwo = true ∧
    loadPlan cachedTwo storeTwo = CachePlan.reuse cachedTwo.embeddings :=
  ⟨by decide, (c1_cache_validity_first_five cachedTwo storeTwo).2.2 (by decide)⟩

/-! ## Cache snapshot persistence (src/unnamed/part_001, lines 92-106)

The source persists the snapshot with `JSON.stringify` on the object
`{docs, embeddings, model, dimensions, timestamp}` and reads it back with
`JSON.parse` followed by field accesses.  Since `JSON.parse ∘ JSON.stringify`
is the identity on JSON values, persistence is modelled at the JSON-value
level: `encodeCacheFile` is the value the source stringifies (note
`dimensions: embeddings[0]?.length` is `undefined` for an empty embeddings
array, and `JSON.stringify` drops such a key — modelled by omitting the
field), and `decodeCacheFile` reads the fields back, typed per the cache
file format `{docs: [{id, text}], embeddings: [[number]], model: string,
dimensions: number, timestamp: string}`. -/

/-- JSON values; numbers are exact rationals. -/
inductive Json where
  | str (s : String)
  | num (q : Rat)
  | arr (elems : List Json)
  | obj (fields : List (String × Json))
  | jnull

/-- Property access `j[key]` on a JSON object. -/
def jsonField (j : Json) (key : String) : Option Json :=
  match j with
  | Json.obj fields => fields.lookup key
  | _ => none

/-- Read a JSON string. -/
def asString : Json → Option String
  | Json.str s => some s
  | _ => none

/-- Read a JSON number. -/
def asNum : Json → Option Rat
  | Json.num q => some q
  | _ => none

/-- Read a JSON array. -/
def asArr : Json → Option (List Json)
  | Json.arr l => some l
  | _ => none

/-- Traverse a list with a fallible reader, failing if any element fails. -/
def optList {α β : Type} (f : α → Option β) : List α → Option (List β)
  | [] => some []
  | a :: l =>
    match f a, optList f l with
    | some b, some bs => some (b :: bs)
    | _, _ => none

/-- Read one `{id, text}` document object. -/
def decodeDoc (j : Json) : Option CDoc :=
  match (jsonField j "id").bind asString, (jsonField j "text").bind asString with
  | some i, some t => some (CDoc.mk i t)
  | _, _ => none

/-- The JSON value the source writes to the cache file. -/
def encodeCacheFile (docs : List CDoc) (embeddings : List (List Rat))
    (timestamp : String) : Json :=
  Json.obj
    ([("docs", Json.arr (docs.map (fun d =>
        Json.obj [("id", Json.str d.id), ("text", Json.str d.text)]))),
      ("embeddings", Json.arr (embeddings.map (fun v => Json.arr (v.map Json.num)))),
      ("model", Json.str targetModel)] ++
     (match embeddings.head? with
      | some v => [("dimensions", Json.num ((v.length : Nat) : Rat))]
      | none => []) ++
     [("timestamp", Json.str timestamp)])

/-- The snapshot as read back from the cache file. -/
structure Snapshot where
  docs : List CDoc
  embeddings : List (List Rat)
  model : String
  dims : Option Rat
  timestamp : String
deriving DecidableEq

/-- Read one embedding row (an array of numbers). -/
def decodeRow (r : Json) : Option (List Rat) :=
  (asArr r).bind (optList asNum)

/-- Reading the persisted snapshot back: the typed contents of the fields the
loader accesses. -/
def decodeCacheFile (j : Json) : Option Snapshot :=
  match (jsonField j "docs").bind asArr, (jsonField j "embeddings").bind asArr,
      (jsonField j "model").bind asString, (jsonField j "timestamp").bind asString with
  | some docsJ, some embJ, some model, some ts =>
    match optList decodeDoc docsJ, optList decodeRow embJ with
    | some docs, some embeddings =>
      some (Snapshot.mk docs embeddings model ((jsonField j "dimensions").bind asNum) ts)
    | _, _ => none
  | _, _, _, _ => none

/-- Decoding an encoded document list recovers it. -/
theorem optList_decodeDoc_encode (docs : List CDoc) :
    optList decodeDoc (docs.map (fun d =>
      Json.obj [("id", Json.str d.id), ("text", Json.str d.text)])) = some docs := by
  induction docs with
  | nil => rfl
  | cons d ds ih =>
    cases d with
    | mk i t => simp [optList, ih, decodeDoc, jsonField, List.lookup, asString]

/-- Decoding an encoded number row recovers it. -/
theorem optList_asNum_encode (v : List Rat) :
    optList asNum (v.map Json.num) = some v := by
  induction v with
  | nil => rfl
  | cons q qs ih => simp [optList, ih, asNum]

/-- Decoding one encoded embedding row recovers it. -/
theorem decodeRow_encode (v : List Rat) :
    decodeRow (Json.arr (v.map Json.num)) = some v := by
  simp [decodeRow, asArr, optList_asNum_encode]

/-- Decoding an encoded embedding matrix recovers it. -/
theorem optList_rows_encode (embs : List (List Rat)) :
    optList decodeRow (embs.map (fun v => Json.arr (v.map Json.num))) = some embs := by
  induction embs with
  | nil => rfl
  | cons v vs ih => simp [optList, ih, decodeRow_encode]

/-- **C9**: writing a cache snapshot and reloading it reproduces exactly the
same `docs`, `embeddings`, `model` and `dims` fields, with order preserved —
`dims` being the dimension of the first embedding, as the source computes it
on both sides. -/
theorem c9_cache_snapshot_roundtrip (docs : List CDoc) (embeddings : List (List Rat))
    (timestamp : String) :
    decodeCacheFile (encodeCacheFile docs embeddings timestamp) =
      some (Snapshot.mk docs embeddings targetModel
        ((embeddings.head?).map (fun v => ((v.length : Nat) : Rat))) timestamp) := by
  cases embeddings with
  | nil =>
    have h2 : optList decodeRow ([] : List Json) = some [] := rfl
    simp [decodeCacheFile, encodeCacheFile, jsonField, List.lookup, asArr, asString, asNum,
      optList_decodeDoc_encode, h2]
  | cons v vs =>
    have h2 := optList_rows_encode (v :: vs)
    rw [List.map_cons] at h2
    simp [decodeCacheFile, encodeCacheFile, jsonField, List.lookup, asArr, asString, asNum,
      optList_decodeDoc_encode, h2]

/-! ## Ranking shared by both search paths

`similarities.sort((a, b) => b.similarity - a.similarity)` — ECMAScript
`Array.prototype.sort` is stable, and the comparator is the consistent
descending order on scores, so the output is the unique stable descending
reordering of its input; `List.insertionSort` with the relation
`fun a b => b.2 ≤ a.2` (insert before the first strictly smaller score)
computes exactly that reordering.  Scores are idealized real numbers. -/

/-- The descending-score order used by the sort comparator. -/
def scoreGE : Nat × ℝ → Nat × ℝ → Prop := fun a b => b.2 ≤ a.2

noncomputable instance : DecidableRel scoreGE := fun a b => Real.decidableLE b.2 a.2

instance : IsTotal (Nat × ℝ) scoreGE := ⟨fun a b => le_total b.2 a.2⟩

instance : IsTrans (Nat × ℝ) scoreGE := ⟨fun _ _ _ h1 h2 => le_trans h2 h1⟩

/-- Stable descending sort of `(index, score)` pairs — the JS
`sort((a, b) => b[1] - a[1])`. -/
noncomputable def sortDesc (l : List (Nat × ℝ)) : List (Nat × ℝ) :=
  l.insertionSort scoreGE

/-- The sorted output is non-increasing in score. -/
theorem sortDesc_pairwise (l : List (Nat × ℝ)) :
    (sortDesc l).Pairwise (fun a b => b.2 ≤ a.2) :=
  List.sorted_insertionSort scoreGE l

/-- The sorted output is a permutation of the input. -/
theorem sortDesc_perm (l : List (Nat × ℝ)) : List.Perm (sortDesc l) l :=
  List.perm_insertionSort scoreGE l

/-- Stability: for each score value, the entries holding it appear in the
sorted output in exactly their input order. -/
theorem sortDesc_filter_eq (l : List (Nat × ℝ)) (s : ℝ) :
    (sortDesc l).filter (fun p => decide (p.2 = s)) = l.filter (fun p => decide (p.2 = s)) := by
  set P : Nat × ℝ → Bool := fun p => decide (p.2 = s) with hP
  have hmem : ∀ x ∈ l.filter P, x.2 = s := by
    intro x hx
    have := List.of_mem_filter hx
    rwa [hP, decide_eq_true_iff] at this
  have hr : (l.filter P).Pairwise scoreGE := by
    refine List.pairwise_of_forall_mem_list ?_
    intro a ha b hb
    show b.2 ≤ a.2
    rw [hmem a ha, hmem b hb]
  have hsub : List.Sublist (l.filter P) (sortDesc l) :=
    List.sublist_insertionSort hr (List.filter_sublist l)
  have hsub2 : List.Sublist ((l.filter P).filter P) ((sortDesc l).filter P) := hsub.filter P
  have hself : (l.filter P).filter P = l.filter P := by
    rw [List.filter_eq_self]
    intro a ha
    rw [hP, decide_eq_true_iff]
    exact hmem a ha
  rw [hself] at hsub2
  have hperm : List.Perm ((sortDesc l).filter P) (l.filter P) := (sortDesc_perm l).filter P
  exact ((hsub2.eq_of_length hperm.length_eq.symm).symm)

/-- Everything dropped by `take limit` scores no higher than anything kept. -/
theorem sortDesc_take_top (l : List (Nat × ℝ)) (limit : Nat) :
    ∀ x ∈ (sortDesc l).take limit, ∀ y ∈ (sortDesc l).drop limit, y.2 ≤ x.2 := by
  intro x hx y hy
  exact (sortDesc_pairwise l).rel_of_mem_take_of_mem_drop hx hy

/-! ## Embedding-based search (src/unnamed/part_000 and part_001, `search`)

The search embeds the query, computes the cosine similarity of the query
vector against every stored vector in corpus order, sorts stably by
descending similarity, truncates to `limit`, and formats results with the
score rounded to 4 decimal places (`Number(s.toFixed(4))`, idealized as
rounding to the nearest multiple of `1 / 10000`). `cosineSimilarity` throws
on a length mismatch, which rejects the whole search. -/

/-- `Number(x.toFixed(4))`, idealized over the reals. -/
noncomputable def round4 (x : ℝ) : ℝ := (round (x * 10000) : ℤ) / 10000

/-- `dot(a, b) / (‖a‖ * ‖b‖)` as in the source's loop. -/
noncomputable def cosineSimilarity (a b : List ℝ) : ℝ :=
  (List.zipWith (fun x y => x * y) a b).sum /
    (Real.sqrt ((a.map (fun x => x * x)).sum) * Real.sqrt ((b.map (fun x => x * x)).sum))

/-- One search result `{id, text, score}`. -/
structure RRes where
  id : String
  text : String
  score : ℝ

/-- `docs[i]` (total: out-of-range yields a dummy, never reached when the
embeddings and docs lists have equal length). -/
def getDoc (docs : List CDoc) (i : Nat) : CDoc := (docs[i]?).getD (CDoc.mk "" "")

/-- Position-indexed enumeration starting at `n`. -/
def enumIdx {α : Type} : Nat → List α → List (Nat × α)
  | _, [] => []
  | n, a :: l => (n, a) :: enumIdx (n + 1) l

/-- `embeddings.map((docEmbedding, index) => ({index, similarity}))`. -/
noncomputable def simsOf (q : List ℝ) (embs : List (List ℝ)) : List (Nat × ℝ) :=
  (enumIdx 0 embs).map (fun p => (p.1, cosineSimilarity q p.2))

/-- The embedding search: cosine similarities in corpus order, stable
descending sort, truncation to `limit`, formatting with rounded scores.  A
dimension mismatch anywhere rejects the search, as the source's
`cosineSimilarity` throw does. -/
noncomputable def searchEmb (docs : List CDoc) (embs : List (List ℝ)) (q : List ℝ)
    (limit : Nat) : Except String (List RRes) :=
  if embs.all (fun e => e.length == q.length) then
    Except.ok (((sortDesc (simsOf q embs)).take limit).map
      (fun p => RRes.mk (getDoc docs p.1).id (getDoc docs p.1).text (round4 p.2)))
  else Except.error "Vectors must have the same length"

/-- Indices produced by `enumIdx n` lie in `[n, n + length)`. -/
theorem enumIdx_fst_bound {α : Type} (l : List α) :
    ∀ (n : Nat), ∀ p ∈ enumIdx n l, n ≤ p.1 ∧ p.1 < n + l.length := by
  induction l with
  | nil => intro n p hp; simp [enumIdx] at hp
  | cons a t ih =>
    intro n p hp
    rw [enumIdx] at hp
    rcases List.mem_cons.mp hp with h | h
    · subst h; simp
    · obtain ⟨h1, h2⟩ := ih (n + 1) p h
      constructor
      · omega
      · simpa [Nat.add_comm, Nat.add_assoc, Nat.add_left_comm] using h2

/-- The indices of `enumIdx n l` are strictly increasing. -/
theorem enumIdx_pairwise_lt {α : Type} (l : List α) :
    ∀ (n : Nat), (enumIdx n l).Pairwise (fun a b => a.1 < b.1) := by
  induction l with
  | nil => intro n; simp [enumIdx]
  | cons a t ih =>
    intro n
    rw [enumIdx]
    refine List.Pairwise.cons ?_ (ih (n + 1))
    intro p hp
    have := (enumIdx_fst_bound t (n + 1) p hp).1
    omega

/-- Rounding to 4 decimals is monotone. -/
theorem round4_mono {x y : ℝ} (h : x ≤ y) : round4 x ≤ round4 y := by
  rw [round4, round4]
  have h1 : round (x * 10000) ≤ round (y * 10000) := by
    rw [round_eq, round_eq]
    exact Int.floor_mono (by linarith)
  have h2 : ((round (x * 10000) : ℤ) : ℝ) ≤ ((round (y * 10000) : ℤ) : ℝ) := Int.cast_le.mpr h1
  linarith

/-- Every similarity entry's index is a valid corpus position. -/
theorem mem_simsOf_fst_lt (q : List ℝ) (embs : List (List ℝ)) :
    ∀ p ∈ simsOf q embs, p.1 < embs.length := by
  intro p hp
  rw [simsOf] at hp
  obtain ⟨x, hx, rfl⟩ := List.mem_map.mp hp
  have := (enumIdx_fst_bound embs 0 x hx).2
  simpa using this

/-- The similarity entries carry strictly increasing (hence distinct) corpus
positions. -/
theorem simsOf_pairwise_fst (q : List ℝ) (embs : List (List ℝ)) :
    (simsOf q embs).Pairwise (fun a b => a.1 < b.1) := by
  rw [simsOf]
  rw [List.pairwise_map]
  exact enumIdx_pairwise_lt embs 0

/-- **C4 (amended)**: whenever the embedding search succeeds, it returns at
most `limit` results, ordered non-increasing by reported score (descending
with ties allowed — the original "strictly descending" fails on tied
similarities); given unique corpus ids (the data-model invariant — the
original unconditional "no duplicate ids" fails for corpora with repeated
ids) the result ids are distinct; entries with equal raw similarity keep
their original corpus order (stable sort), and everything truncated away
scores no higher than anything returned. -/
theorem c4_search_ranking (docs : List CDoc) (embs : List (List ℝ)) (q : List ℝ)
    (limit : Nat) (out : List RRes)
    (hlen : embs.length = docs.length)
    (hids : (docs.map CDoc.id).Nodup)
    (hok : searchEmb docs embs q limit = Except.ok out) :
    out = ((sortDesc (simsOf q embs)).take limit).map
      (fun p => RRes.mk (getDoc docs p.1).id (getDoc docs p.1).text (round4 p.2)) ∧
    out.length ≤ limit ∧
    out.Pairwise (fun a b => b.score ≤ a.score) ∧
    (out.map RRes.id).Nodup ∧
    (∀ s : ℝ, (sortDesc (simsOf q embs)).filter (fun p => decide (p.2 = s)) =
      (simsOf q embs).filter (fun p => decide (p.2 = s))) ∧
    (∀ x ∈ (sortDesc (simsOf q embs)).take limit,
     ∀ y ∈ (sortDesc (simsOf q embs)).drop limit, y.2 ≤ x.2) := by
  have hout : out = ((sortDesc (simsOf q embs)).take limit).map
      (fun p => RRes.mk (getDoc docs p.1).id (getDoc docs p.1).text (round4 p.2)) := by
    rw [searchEmb] at hok
    by_cases hc : (embs.all (fun e => e.length == q.length)) = true
    · rw [if_pos hc] at hok
      exact (Except.ok.injEq .. ▸ hok).symm ▸ rfl
    · rw [if_neg hc] at hok
      exact absurd hok (by simp)
  have htake_sub : List.Sublist ((sortDesc (simsOf q embs)).take limit)
      (sortDesc (simsOf q embs)) := List.take_sublist _ _
  have hfst_nodup : (((sortDesc (simsOf q embs)).take limit).map Prod.fst).Nodup := by
    have h1 : ((simsOf q embs).map Prod.fst).Nodup := by
      have := simsOf_pairwise_fst q embs
      have h2 : ((simsOf q embs).map Prod.fst).Pairwise (fun a b => a < b) := by
        rw [List.pairwise_map]
        exact this
      exact h2.nodup
    have h3 : ((sortDesc (simsOf q embs)).map Prod.fst).Nodup :=
      (((sortDesc_perm (simsOf q embs)).map Prod.fst).nodup_iff).mpr h1
    exact (htake_sub.map Prod.fst).nodup h3
  have hmem_lt : ∀ p ∈ (sortDesc (simsOf q embs)).take limit, p.1 < docs.length := by
    intro p hp
    have hp2 : p ∈ sortDesc (simsOf q embs) := htake_sub.mem hp
    have hp3 : p ∈ simsOf q embs := (sortDesc_perm (simsOf q embs)).mem_iff.mp hp2
    exact hlen ▸ mem_simsOf_fst_lt q embs p hp3
  refine ⟨hout, ?_, ?_, ?_, sortDesc_filter_eq _, sortDesc_take_top _ _⟩
  · rw [hout, List.length_map]
    exact List.length_take_le _ _
  · rw [hout, List.pairwise_map]
    have := (sortDesc_pairwise (simsOf q embs)).sublist htake_sub
    exact this.imp (fun h => round4_mono h)
  · rw [hout]
    have hmap : (((sortDesc (simsOf q embs)).take limit).map
        (fun p => RRes.mk (getDoc docs p.1).id (getDoc docs p.1).text (round4 p.2))).map
          RRes.id =
        (((sortDesc (simsOf q embs)).take limit).map Prod.fst).map
          (fun i => (getDoc docs i).id) := by
      rw [List.map_map, List.map_map]
      rfl
    rw [hmap]
    refine List.Nodup.map_on ?_ hfst_nodup
    intro i hi j hj hid
    obtain ⟨pi, hpi, hpi2⟩ := List.mem_map.mp hi
    obtain ⟨pj, hpj, hpj2⟩ := List.mem_map.mp hj
    have hilt : i < docs.length := hpi2 ▸ hmem_lt pi hpi
    have hjlt : j < docs.length := hpj2 ▸ hmem_lt pj hpj
    have hgi : getDoc docs i = docs.get ⟨i, hilt⟩ := by
      rw [getDoc, List.getElem?_eq_some_iff.mpr ⟨hilt, rfl⟩]
      rfl
    have hgj : getDoc docs j = docs.get ⟨j, hjlt⟩ := by
      rw [getDoc, List.getElem?_eq_some_iff.mpr ⟨hjlt, rfl⟩]
      rfl
    rw [hgi, hgj] at hid
    have hilt2 : i < (docs.map CDoc.id).length := by rw [List.length_map]; exact hilt
    have hjlt2 : j < (docs.map CDoc.id).length := by rw [List.length_map]; exact hjlt
    have hcast : (docs.map CDoc.id)[i] = (docs.map CDoc.id)[j] := by
      rw [List.getElem_map, List.getElem_map]
      exact hid
    exact (hids.getElem_inj_iff).mp hcast

/-- A two-document corpus with a repeated id and identical texts. -/
def docsDup : List CDoc := [CDoc.mk "1" "a", CDoc.mk "1" "a"]

/-- The cosine similarity of `[1]` with itself is `1`. -/
theorem cosine_one_one : cosineSimilarity [(1 : ℝ)] [(1 : ℝ)] = 1 := by
  rw [cosineSimilarity]
  simp [Real.sqrt_one]

/-- `Number((1).toFixed(4)) = 1`. -/
theorem round4_one : round4 1 = 1 := by
  rw [round4]
  have h : ((1 : ℝ) * 10000) = ((10000 : ℤ) : ℝ) := by norm_num
  rw [h, round_intCast]
  norm_num

/-- Counterexample to C4 as stated: on the corpus `docsDup` (two documents
with equal embeddings `[1]` and the repeated id `"1"`) and query embedding
`[1]`, the search returns two results with equal reported scores — so the
output is not *strictly* descending — and with duplicate ids — so the
unconditional "no duplicate document ids" fails as well. -/
theorem c4_strict_descending_counterexample :
    searchEmb docsDup [[1], [1]] [1] 25 =
      Except.ok [RRes.mk "1" "a" 1, RRes.mk "1" "a" 1] ∧
    ¬ ([RRes.mk "1" "a" (1 : ℝ), RRes.mk "1" "a" 1].Pairwise
        (fun a b => b.score < a.score)) ∧
    ¬ (([RRes.mk "1" "a" (1 : ℝ), RRes.mk "1" "a" 1].map RRes.id).Nodup) := by
  refine ⟨?_, ?_, ?_⟩
  · have hsims : simsOf [(1 : ℝ)] [[1], [1]] = [(0, 1), (1, 1)] := by
      rw [simsOf]
      simp [enumIdx, cosine_one_one]
    have hsort : sortDesc [((0 : Nat), (1 : ℝ)), (1, 1)] = [(0, 1), (1, 1)] := by
      rw [sortDesc]
      simp [List.insertionSort, List.orderedInsert, scoreGE]
    rw [searchEmb, if_pos (by rfl), hsims, hsort]
    simp [getDoc, docsDup, round4_one]
    exact ⟨rfl, rfl⟩
  · intro h
    have := (List.pairwise_cons.mp h).1 (RRes.mk "1" "a" 1) (by simp)
    exact absurd this (by simp)
  · intro h
    simp [List.nodup_cons] at h

/-- Corpus for the C4 witness: distinct ids, equal embeddings. -/
def docsW : List CDoc := [CDoc.mk "1" "a", CDoc.mk "2" "b"]

/-- The result list of the witness search, as produced by `searchEmb`. -/
noncomputable def c4OutW : List RRes :=
  ((sortDesc (simsOf [1] [[1], [1]])).take 25).map
    (fun p => RRes.mk (getDoc docsW p.1).id (getDoc docsW p.1).text (round4 p.2))

/-- Witness for C4 (amended) at a concrete input: the two-document corpus
`docsW` with embeddings `[[1], [1]]`, query `[1]`, limit 25. -/
theorem c4_search_ranking_witness :
    c4OutW = ((sortDesc (simsOf [1] [[1], [1]])).take 25).map
      (fun p => RRes.mk (getDoc docsW p.1).id (getDoc docsW p.1).text (round4 p.2)) ∧
    c4OutW.length ≤ 25 ∧
    c4OutW.Pairwise (fun a b => b.score ≤ a.score) ∧
    (c4OutW.map RRes.id).Nodup ∧
    (∀ s : ℝ, (sortDesc (simsOf [1] [[1], [1]])).filter (fun p => decide (p.2 = s)) =
      (simsOf [1] [[1], [1]]).filter (fun p => decide (p.2 = s))) ∧
    (∀ x ∈ (sortDesc (simsOf [1] [[1], [1]])).take 25,
     ∀ y ∈ (sortDesc (simsOf [1] [[1], [1]])).drop 25, y.2 ≤ x.2) :=
  c4_search_ranking docsW [[1], [1]] [1] 25 c4OutW rfl (by decide) rfl

/-! ## Lexical TF-IDF index (src/libraryIndex.js)

Tokenizer: maximal runs of `[A-Za-z0-9']`, lowercased, with a fixed stopword
set removed.  The inverted index is a JS `Map` from term to a `Map` from
document position to term frequency; JS `Map`s iterate in insertion order, so
both are modelled as association lists where `set` replaces in place or
appends.  Query scoring folds over the query tokens, accumulating
`(1 + ln(1 + tf)) * ln(1 + N / (1 + df))` into a score map, then normalizes
by `sqrt(max(1, tokenCount))`, sorts stably by descending score, truncates,
and rounds scores to 4 decimals. -/

/-- The source's stopword set. -/
def stopWords : List String :=
  ["the", "a", "an", "and", "or", "of", "to", "for", "with", "on", "in", "at",
   "by", "is", "are", "be", "use", "using"]

/-- A character matched by the token pattern `[A-Za-z0-9']`. -/
def isTokChar (c : Char) : Bool := c.isAlpha || c.isDigit || c == Char.ofNat 39

/-- Maximal runs of token characters (the regex global match). -/
def tokRuns : List Char → List Char → List (List Char)
  | [], cur => if cur.isEmpty then [] else [cur]
  | c :: rest, cur =>
    if isTokChar c then tokRuns rest (cur ++ [c])
    else if cur.isEmpty then tokRuns rest cur
    else cur :: tokRuns rest []

/-- `tokenize`: match runs, lowercase, drop stopwords. -/
def tokenize (s : String) : List String :=
  ((tokRuns s.toList []).map (fun cs => String.mk (cs.map Char.toLower))).filter
    (fun t => !(stopWords.contains t))

/-- JS `Map.set`: replace in place if the key is present, else append. -/
def alSet {κ β : Type} [DecidableEq κ] (l : List (κ × β)) (k : κ) (v : β) : List (κ × β) :=
  match l with
  | [] => [(k, v)]
  | p :: rest => if p.1 = k then (k, v) :: rest else p :: alSet rest k v

/-- JS `Map.get`. -/
def alGet {κ β : Type} [DecidableEq κ] (l : List (κ × β)) (k : κ) : Option β :=
  match l with
  | [] => none
  | p :: rest => if p.1 = k then some p.2 else alGet rest k

/-- One token occurrence of document `i` entering the inverted index:
`m = inverted.get(tok) || new Map(); m.set(i, (m.get(i) || 0) + 1);
inverted.set(tok, m)`. -/
def addTok (inv : List (String × List (Nat × Nat))) (i : Nat) (t : String) :
    List (String × List (Nat × Nat)) :=
  alSet inv t (alSet ((alGet inv t).getD []) i (((alGet ((alGet inv t).getD []) i).getD 0) + 1))

/-- All token occurrences of document `i`. -/
def addDocTokens (i : Nat) : List String → List (String × List (Nat × Nat)) →
    List (String × List (Nat × Nat))
  | [], inv => inv
  | t :: ts, inv => addDocTokens i ts (addTok inv i t)

/-- `docs.forEach((d, i) => d.tokens.forEach(...))` starting at position `i`. -/
def buildFrom : Nat → List CDoc → List (String × List (Nat × Nat)) →
    List (String × List (Nat × Nat))
  | _, [], inv => inv
  | i, d :: ds, inv => buildFrom (i + 1) ds (addDocTokens i (tokenize d.text) inv)

/-- The inverted index of a document store. -/
def buildInverted (docs : List CDoc) : List (String × List (Nat × Nat)) :=
  buildFrom 0 docs []

/-- One term's postings folded into the score map. -/
noncomputable def postingsFold (idf : ℝ) (postings : List (Nat × Nat))
    (scores : List (Nat × ℝ)) : List (Nat × ℝ) :=
  postings.foldl (fun sc p =>
    alSet sc p.1 (((alGet sc p.1).getD 0) + (1 + Real.log (1 + (p.2 : ℝ))) * idf)) scores

/-- The fold over the query tokens building the score map. -/
noncomputable def scoreFold (inv : List (String × List (Nat × Nat))) (n : Nat) :
    List String → List (Nat × ℝ) → List (Nat × ℝ)
  | [], scores => scores
  | t :: ts, scores =>
    match alGet inv t with
    | none => scoreFold inv n ts scores
    | some postings =>
      scoreFold inv n ts
        (postingsFold (Real.log (1 + (n : ℝ) / (1 + (postings.length : ℝ)))) postings scores)

/-- `docs[i].tokens`. -/
def tokensAt (docs : List CDoc) (i : Nat) : List String := tokenize (getDoc docs i).text

/-- `s / Math.sqrt(Math.max(1, docs[i].tokens.length))` applied to every
score entry. -/
noncomputable def normalizeScores (docs : List CDoc) (l : List (Nat × ℝ)) : List (Nat × ℝ) :=
  l.map (fun p => (p.1, p.2 / Real.sqrt (max 1 ((tokensAt docs p.1).length : ℝ))))

/-- The score map of a query against a document store. -/
noncomputable def lexEntries (docs : List CDoc) (query : String) : List (Nat × ℝ) :=
  scoreFold (buildInverted docs) docs.length (tokenize query) []

/-- The lexical search of `loadLibraryCsv(...).search`. -/
noncomputable def searchLex (docs : List CDoc) (query : String) (limit : Nat) : List RRes :=
  ((sortDesc (normalizeScores docs (lexEntries docs query))).take limit).map
    (fun p => RRes.mk (getDoc docs p.1).id (getDoc docs p.1).text (round4 p.2))

/-- Term frequency of `t` in document `i` (zero out of range). -/
def tf (docs : List CDoc) (t : String) (i : Nat) : Nat := (tokensAt docs i).count t

/-- Document frequency: the number of documents containing `t`. -/
def df (docs : List CDoc) (t : String) : Nat :=
  (docs.filter (fun d => (tokenize d.text).contains t)).length

/-- One query term's unnormalized contribution to document `i` — zero when
the term does not occur in the document. -/
noncomputable def lexContribution (docs : List CDoc) (t : String) (i : Nat) : ℝ :=
  if 0 < tf docs t i then
    (1 + Real.log (1 + (tf docs t i : ℝ))) *
      Real.log (1 + (docs.length : ℝ) / (1 + (df docs t : ℝ)))
  else 0

/-- The closed-form per-document score: sum of contributions of the query
tokens occurring in the document, normalized by the square root of the
document's token count (at least 1). -/
noncomputable def lexScore (docs : List CDoc) (q : List String) (i : Nat) : ℝ :=
  ((q.map (fun t => lexContribution docs t i)).sum) /
    Real.sqrt (max 1 ((tokensAt docs i).length : ℝ))

/-- The literal formula of C7 as stated: every query term *present in the
inverted index* contributes `(1 + ln(1 + tf)) * idf`, even for a document
with `tf = 0` (where the factor degenerates to `1 * idf ≠ 0`). -/
noncomputable def lexScoreClaimed (docs : List CDoc) (q : List String) (i : Nat) : ℝ :=
  ((q.map (fun t =>
      if 0 < df docs t then
        (1 + Real.log (1 + (tf docs t i : ℝ))) *
          Real.log (1 + (docs.length : ℝ) / (1 + (df docs t : ℝ)))
      else 0)).sum) /
    Real.sqrt (max 1 ((tokensAt docs i).length : ℝ))

/-- The expected postings list of term `t` over documents enumerated from
position `i`: each containing document in order, with its term frequency. -/
def postingsFrom (i : Nat) (ds : List CDoc) (t : String) : List (Nat × Nat) :=
  (enumIdx i ds).filterMap (fun p =>
    if 0 < (tokenize p.2.text).count t then some (p.1, (tokenize p.2.text).count t) else none)

/-! ### Association-list lemmas -/

theorem alGet_alSet_self {κ β : Type} [DecidableEq κ] (l : List (κ × β)) (k : κ) (v : β) :
    alGet (alSet l k v) k = some v := by
  induction l with
  | nil => simp [alSet, alGet]
  | cons p rest ih =>
    by_cases h : p.1 = k
    · simp [alSet, alGet, h]
    · simp [alSet, alGet, h, ih]

theorem alGet_alSet_ne {κ β : Type} [DecidableEq κ] (l : List (κ × β)) (k k' : κ) (v : β)
    (h : k' ≠ k) : alGet (alSet l k v) k' = alGet l k' := by
  induction l with
  | nil =>
    simp [alSet, alGet]
    exact fun he => h he.symm
  | cons p rest ih =>
    by_cases hp : p.1 = k
    · rw [alSet, if_pos hp, alGet, alGet]
      have h1 : ¬ (k = k') := fun he => h he.symm
      have h2 : ¬ (p.1 = k') := fun he => h1 (hp ▸ he)
      rw [if_neg h1, if_neg h2]
    · rw [alSet, if_neg hp, alGet, alGet]
      by_cases hk : p.1 = k'
      · rw [if_pos hk, if_pos hk]
      · rw [if_neg hk, if_neg hk, ih]

theorem alGet_eq_none_of_forall {κ β : Type} [DecidableEq κ] (l : List (κ × β)) (k : κ)
    (h : ∀ p ∈ l, p.1 ≠ k) : alGet l k = none := by
  induction l with
  | nil => rfl
  | cons p rest ih =>
    rw [alGet, if_neg (h p (List.mem_cons_self p rest))]
    exact ih (fun q hq => h q (List.mem_cons_of_mem p hq))

theorem alSet_of_get_none {κ β : Type} [DecidableEq κ] (l : List (κ × β)) (k : κ) (v : β)
    (h : alGet l k = none) : alSet l k v = l ++ [(k, v)] := by
  induction l with
  | nil => rfl
  | cons p rest ih =>
    rw [alGet] at h
    by_cases hp : p.1 = k
    · rw [if_pos hp] at h; exact absurd h (by simp)
    · rw [if_neg hp] at h
      rw [alSet, if_neg hp, ih h, List.cons_append]

theorem alSet_alSet_self {κ β : Type} [DecidableEq κ] (l : List (κ × β)) (k : κ) (v w : β) :
    alSet (alSet l k v) k w = alSet l k w := by
  induction l with
  | nil => simp [alSet]
  | cons p rest ih =>
    by_cases hp : p.1 = k
    · simp [alSet, hp]
    · simp [alSet, hp, ih]

theorem mem_alSet {κ β : Type} [DecidableEq κ] (l : List (κ × β)) (k : κ) (v : β) :
    ∀ p ∈ alSet l k v, p ∈ l ∨ p = (k, v) := by
  induction l with
  | nil => intro p hp; rw [alSet] at hp; right; simpa using hp
  | cons q rest ih =>
    intro p hp
    by_cases hq : q.1 = k
    · rw [alSet, if_pos hq] at hp
      rcases List.mem_cons.mp hp with h | h
      · right; exact h
      · left; exact List.mem_cons_of_mem q h
    · rw [alSet, if_neg hq] at hp
      rcases List.mem_cons.mp hp with h | h
      · left; exact h ▸ List.mem_cons_self q rest
      · rcases ih p h with h2 | h2
        · left; exact List.mem_cons_of_mem q h2
        · right; exact h2

theorem alSet_keys_nodup {κ β : Type} [DecidableEq κ] (l : List (κ × β)) (k : κ) (v : β)
    (h : (l.map Prod.fst).Nodup) : ((alSet l k v).map Prod.fst).Nodup := by
  induction l with
  | nil => simp [alSet]
  | cons p rest ih =>
    rw [List.map_cons, List.nodup_cons] at h
    by_cases hp : p.1 = k
    · rw [alSet, if_pos hp, List.map_cons, List.nodup_cons]
      exact ⟨hp ▸ h.1, h.2⟩
    · rw [alSet, if_neg hp, List.map_cons, List.nodup_cons]
      refine ⟨?_, ih h.2⟩
      intro hmem
      obtain ⟨q, hq, hq2⟩ := List.mem_map.mp hmem
      rcases mem_alSet rest k v q hq with h2 | h2
      · exact h.1 (hq2 ▸ List.mem_map_of_mem Prod.fst h2)
      · exact hp (by rw [← hq2, h2])

theorem alGet_eq_some_iff_of_nodup {κ β : Type} [DecidableEq κ] (l : List (κ × β))
    (h : (l.map Prod.fst).Nodup) (k : κ) (v : β) : alGet l k = some v ↔ (k, v) ∈ l := by
  induction l with
  | nil => simp [alGet]
  | cons p rest ih =>
    rw [List.map_cons, List.nodup_cons] at h
    by_cases hp : p.1 = k
    · rw [alGet, if_pos hp, List.mem_cons]
      constructor
      · intro hv
        left
        have hv2 : v = p.2 := (Option.some_inj.mp hv).symm
        cases p with
        | mk pk pv =>
          simp only at hp hv2
          rw [← hp, hv2]
      · intro hv
        rcases hv with h2 | h2
        · rw [← h2]
        · exact absurd (hp ▸ List.mem_map_of_mem Prod.fst h2) h.1
    · rw [alGet, if_neg hp, List.mem_cons, ih h.2]
      constructor
      · intro h2; right; exact h2
      · intro h2
        rcases h2 with h3 | h3
        · exact absurd (congrArg Prod.fst h3).symm hp
        · exact h3

/-! ### Characterizing the inverted index -/

/-- Folding one document's tokens: term `t`'s postings gain the document's
occurrence count at key `i` (or stay unchanged when the document does not
contain `t`). -/
theorem addDocTokens_alGet (i : Nat) (t : String) :
    ∀ (ts : List String) (inv : List (String × List (Nat × Nat))),
      alGet (addDocTokens i ts inv) t =
        if 0 < ts.count t then
          some (alSet ((alGet inv t).getD []) i
            ((alGet ((alGet inv t).getD []) i).getD 0 + ts.count t))
        else alGet inv t := by
  intro ts
  induction ts with
  | nil =>
    intro inv
    rw [addDocTokens]
    simp
  | cons u us ih =>
    intro inv
    rw [addDocTokens, ih (addTok inv i u)]
    by_cases hu : u = t
    · subst hu
      have hget : alGet (addTok inv i u) u =
          some (alSet ((alGet inv u).getD []) i
            ((alGet ((alGet inv u).getD []) i).getD 0 + 1)) := by
        rw [addTok, alGet_alSet_self]
      have hcount : (u :: us).count u = us.count u + 1 := by
        simp [List.count_cons]
      by_cases hc : 0 < us.count u
      · rw [if_pos hc, hget, hcount, if_pos (Nat.succ_pos _), Option.getD_some,
          alGet_alSet_self, Option.getD_some, alSet_alSet_self]
        refine congrArg some (congrArg _ ?_)
        omega
      · rw [if_neg hc, hget, hcount, if_pos (Nat.succ_pos _)]
        have hz : us.count u = 0 := by omega
        rw [hz]
    · have hget : alGet (addTok inv i u) t = alGet inv t := by
        rw [addTok, alGet_alSet_ne]
        exact fun he => hu he.symm
      have hcount : (u :: us).count t = us.count t := by
        simp [List.count_cons, hu]
      rw [hcount, hget]

/-- Freshness: every posting key in the index is below `i` (no document at
or beyond position `i` was folded in yet). -/
def freshIdx (inv : List (String × List (Nat × Nat))) (i : Nat) : Prop :=
  ∀ t p, p ∈ (alGet inv t).getD [] → p.1 < i

theorem freshIdx_addDocTokens (inv : List (String × List (Nat × Nat))) (i : Nat)
    (ts : List String) (h : freshIdx inv i) :
    freshIdx (addDocTokens i ts inv) (i + 1) := by
  intro t p hp
  rw [addDocTokens_alGet i t ts inv] at hp
  by_cases hc : 0 < ts.count t
  · rw [if_pos hc, Option.getD_some] at hp
    rcases mem_alSet _ _ _ p hp with h2 | h2
    · exact Nat.lt_succ_of_lt (h t p h2)
    · rw [h2]; omega
  · rw [if_neg hc] at hp
    exact Nat.lt_succ_of_lt (h t p hp)

/-- Folding documents from position `i` appends exactly the expected
postings (in document order) to each term's postings list, and a term is
present afterwards iff it was present before or occurs in one of the new
documents. -/
theorem buildFrom_alGet (t : String) :
    ∀ (ds : List CDoc) (i : Nat) (inv : List (String × List (Nat × Nat))),
      freshIdx inv i →
      ((alGet (buildFrom i ds inv) t).getD [] =
        (alGet inv t).getD [] ++ postingsFrom i ds t ∧
       (alGet (buildFrom i ds inv) t = none ↔
        alGet inv t = none ∧ postingsFrom i ds t = [])) := by
  intro ds
  induction ds with
  | nil =>
    intro i inv hf
    simp [buildFrom, postingsFrom, enumIdx]
  | cons d ds ih =>
    intro i inv hf
    rw [buildFrom]
    have hstep := addDocTokens_alGet i t (tokenize d.text) inv
    have hrec := ih (i + 1) (addDocTokens i (tokenize d.text) inv)
      (freshIdx_addDocTokens inv i (tokenize d.text) hf)
    have hpf : postingsFrom i (d :: ds) t =
        (if 0 < (tokenize d.text).count t
          then [(i, (tokenize d.text).count t)] else []) ++ postingsFrom (i + 1) ds t := by
      rw [postingsFrom, enumIdx, List.filterMap_cons]
      by_cases hc : 0 < (tokenize d.text).count t
      · rw [if_pos hc, if_pos hc, List.singleton_append]
        rfl
      · rw [if_neg hc, if_neg hc, List.nil_append]
        rfl
    by_cases hc : 0 < (tokenize d.text).count t
    · have hmi : alGet ((alGet inv t).getD []) i = none := by
        refine alGet_eq_none_of_forall _ _ ?_
        intro p hp
        exact Nat.ne_of_lt (hf t p hp)
      have hset : alSet ((alGet inv t).getD []) i
          ((alGet ((alGet inv t).getD []) i).getD 0 + (tokenize d.text).count t) =
          (alGet inv t).getD [] ++ [(i, (tokenize d.text).count t)] := by
        rw [hmi, Option.getD_none, Nat.zero_add]
        exact alSet_of_get_none _ _ _ hmi
      rw [if_pos hc] at hstep
      constructor
      · rw [hrec.1, hstep, Option.getD_some, hset, hpf, if_pos hc, List.append_assoc]
      · rw [hrec.2, hstep, hpf, if_pos hc]
        simp
    · rw [if_neg hc] at hstep
      constructor
      · rw [hrec.1, hstep, hpf, if_neg hc, List.nil_append]
      · rw [hrec.2, hstep, hpf, if_neg hc, List.nil_append]

/-- The inverted index of a store: term `t`'s postings are exactly the
containing documents in corpus order with their term frequencies; `t` is
absent iff no document contains it. -/
theorem buildInverted_alGet (docs : List CDoc) (t : String) :
    (alGet (buildInverted docs) t).getD [] = postingsFrom 0 docs t ∧
    (alGet (buildInverted docs) t = none ↔ postingsFrom 0 docs t = []) := by
  have h := buildFrom_alGet t docs 0 [] (by intro t p hp; simp [alGet] at hp)
  rw [buildInverted]
  constructor
  · rw [h.1]; rfl
  · rw [h.2]; simp [alGet]

/-- Posting keys from position `i` lie in `[i, i + length)`. -/
theorem postingsFrom_fst_bound (t : String) (ds : List CDoc) (i : Nat) :
    ∀ p ∈ postingsFrom i ds t, i ≤ p.1 ∧ p.1 < i + ds.length := by
  intro p hp
  rw [postingsFrom] at hp
  obtain ⟨a, ha, hfa⟩ := List.mem_filterMap.mp hp
  have hb := enumIdx_fst_bound ds i a ha
  by_cases hc : 0 < (tokenize a.2.text).count t
  · rw [if_pos hc] at hfa
    have hpa : (a.1, (tokenize a.2.text).count t) = p := Option.some_inj.mp hfa
    rw [← hpa]
    exact hb
  · rw [if_neg hc] at hfa
    exact absurd hfa (by simp)

/-- Posting keys are strictly increasing (corpus order). -/
theorem postingsFrom_pairwise (t : String) :
    ∀ (ds : List CDoc) (i : Nat), (postingsFrom i ds t).Pairwise (fun a b => a.1 < b.1) := by
  intro ds
  induction ds with
  | nil => intro i; simp [postingsFrom, enumIdx]
  | cons d ds ih =>
    intro i
    rw [postingsFrom, enumIdx, List.filterMap_cons]
    by_cases hc : 0 < (tokenize d.text).count t
    · rw [if_pos hc]
      refine List.Pairwise.cons ?_ (ih (i + 1))
      intro p hp
      have h1 := (postingsFrom_fst_bound t ds (i + 1) p hp).1
      show i < p.1
      omega
    · rw [if_neg hc]
      exact ih (i + 1)

/-- Membership in the postings list, shifted to a start position `i`. -/
theorem postingsFrom_mem_shift (t : String) :
    ∀ (ds : List CDoc) (i j c : Nat),
      ((i + j, c) ∈ postingsFrom i ds t ↔
       ∃ d, ds[j]? = some d ∧ 0 < (tokenize d.text).count t ∧
         c = (tokenize d.text).count t) := by
  intro ds
  induction ds with
  | nil => intro i j c; simp [postingsFrom, enumIdx]
  | cons d ds ih =>
    intro i j c
    rw [postingsFrom, enumIdx, List.filterMap_cons]
    cases j with
    | zero =>
      by_cases hc : 0 < (tokenize d.text).count t
      · rw [if_pos hc]
        constructor
        · intro h
          rcases List.mem_cons.mp h with h2 | h2
          · refine ⟨d, by simp, hc, ?_⟩
            have := congrArg Prod.snd h2
            simpa using this
          · have h3 := (postingsFrom_fst_bound t ds (i + 1) _ h2).1
            simp at h3
        · intro h
          obtain ⟨d2, hd2, hc2, hcc2⟩ := h
          rw [List.getElem?_cons_zero] at hd2
          have hdd := Option.some_inj.mp hd2
          subst hdd
          refine List.mem_cons.mpr (Or.inl ?_)
          simp [hcc2]
      · rw [if_neg hc]
        constructor
        · intro h
          have h3 := (postingsFrom_fst_bound t ds (i + 1) _ h).1
          simp at h3
        · intro h
          obtain ⟨d2, hd2, hc2, _⟩ := h
          rw [List.getElem?_cons_zero] at hd2
          have hdd := Option.some_inj.mp hd2
          subst hdd
          exact absurd hc2 hc
    | succ k =>
      have harith : i + (k + 1) = (i + 1) + k := by omega
      have hih := ih (i + 1) k c
      rw [List.getElem?_cons_succ]
      by_cases hc : 0 < (tokenize d.text).count t
      · rw [if_pos hc]
        rw [harith]
        constructor
        · intro h
          rcases List.mem_cons.mp h with h2 | h2
          · have := congrArg Prod.fst h2
            simp at this
            omega
          · exact hih.mp h2
        · intro h
          exact List.mem_cons.mpr (Or.inr (hih.mpr h))
      · rw [if_neg hc, harith]
        exact hih

/-- `tokenize` of the empty string is empty. -/
theorem tokenize_empty : tokenize "" = [] := rfl

/-- Membership in the postings of the whole corpus is exactly positive term
frequency (with the posting value being that frequency). -/
theorem postingsFrom_zero_mem (docs : List CDoc) (t : String) (j c : Nat) :
    ((j, c) ∈ postingsFrom 0 docs t) ↔ (0 < tf docs t j ∧ c = tf docs t j) := by
  have h := postingsFrom_mem_shift t docs 0 j c
  rw [Nat.zero_add] at h
  rw [h]
  constructor
  · intro h2
    obtain ⟨d, hd, hc, hcc⟩ := h2
    have hg : getDoc docs j = d := by rw [getDoc, hd]; rfl
    rw [tf, tokensAt, hg]
    exact ⟨hc, hcc⟩
  · intro h2
    obtain ⟨hc, hcc⟩ := h2
    rw [tf, tokensAt] at hc hcc
    cases hd : docs[j]? with
    | none =>
      rw [getDoc, hd] at hc
      rw [show (Option.getD (none : Option CDoc) (CDoc.mk "" "")) = CDoc.mk "" "" from rfl] at hc
      rw [show (CDoc.mk "" "").text = "" from rfl, tokenize_empty] at hc
      simp at hc
    | some d =>
      have hg : getDoc docs j = d := by rw [getDoc, hd]; rfl
      rw [hg] at hc hcc
      exact ⟨d, rfl, hc, hcc⟩

/-- The postings list length is the document frequency. -/
theorem postingsFrom_length (t : String) :
    ∀ (ds : List CDoc) (i : Nat), (postingsFrom i ds t).length = df ds t := by
  intro ds
  induction ds with
  | nil => intro i; simp [postingsFrom, enumIdx, df]
  | cons d ds ih =>
    intro i
    rw [postingsFrom, enumIdx, List.filterMap_cons, df, List.filter_cons]
    by_cases hc : 0 < (tokenize d.text).count t
    · have hmem : t ∈ tokenize d.text := List.count_pos_iff.mp hc
      have hcon : (tokenize d.text).contains t = true := List.elem_iff.mpr hmem
      rw [if_pos hc, if_pos hcon, List.length_cons, List.length_cons]
      exact congrArg (· + 1) (ih (i + 1))
    · have hmem : t ∉ tokenize d.text := fun hm => hc (List.count_pos_iff.mpr hm)
      have hcon : ¬ ((tokenize d.text).contains t = true) := fun hcon2 =>
        hmem (List.elem_iff.mp hcon2)
      rw [if_neg hc, if_neg hcon]
      exact ih (i + 1)

/-- Lookup in an association list with strictly increasing keys is
membership. -/
theorem alGet_of_pairwise_lt {β : Type} (m : List (Nat × β))
    (h : m.Pairwise (fun a b => a.1 < b.1)) (k : Nat) (v : β) :
    alGet m k = some v ↔ (k, v) ∈ m := by
  refine alGet_eq_some_iff_of_nodup m ?_ k v
  have h2 : (m.map Prod.fst).Pairwise (fun a b => a < b) := List.pairwise_map.mpr h
  exact h2.nodup

/-- Unfolding one step of the postings fold. -/
theorem postingsFold_cons (idf : ℝ) (p : Nat × Nat) (rest : List (Nat × Nat))
    (scores : List (Nat × ℝ)) :
    postingsFold idf (p :: rest) scores =
      postingsFold idf rest
        (alSet scores p.1 ((alGet scores p.1).getD 0 + (1 + Real.log (1 + (p.2 : ℝ))) * idf)) :=
  rfl

/-- Folding one term's postings adds `(1 + ln(1 + tf)) * idf` to exactly the
documents in the postings list and leaves every other score unchanged. -/
theorem postingsFold_alGet (idf : ℝ) :
    ∀ (postings : List (Nat × Nat)) (scores : List (Nat × ℝ)) (i : Nat),
      postings.Pairwise (fun a b => a.1 < b.1) →
      alGet (postingsFold idf postings scores) i =
        (match alGet postings i with
        | some tfv => some ((alGet scores i).getD 0 + (1 + Real.log (1 + (tfv : ℝ))) * idf)
        | none => alGet scores i) := by
  intro postings
  induction postings with
  | nil => intro scores i h; simp [postingsFold, alGet]
  | cons p rest ih =>
    intro scores i h
    have hpw := List.pairwise_cons.mp h
    rw [postingsFold_cons, ih _ i hpw.2]
    by_cases hip : p.1 = i
    · have hrest : alGet rest i = none := by
        refine alGet_eq_none_of_forall rest i ?_
        intro q hq
        have := hpw.1 q hq
        omega
      have hhead : alGet (p :: rest) i = some p.2 := by rw [alGet, if_pos hip]
      rw [hrest, hhead]
      have hsc : alGet (alSet scores p.1
          ((alGet scores p.1).getD 0 + (1 + Real.log (1 + (p.2 : ℝ))) * idf)) i =
          some ((alGet scores p.1).getD 0 + (1 + Real.log (1 + (p.2 : ℝ))) * idf) := by
        rw [← hip, alGet_alSet_self]
      rw [hsc, hip]
    · have hhead : alGet (p :: rest) i = alGet rest i := by rw [alGet, if_neg hip]
      have hsc : alGet (alSet scores p.1
          ((alGet scores p.1).getD 0 + (1 + Real.log (1 + (p.2 : ℝ))) * idf)) i =
          alGet scores i := alGet_alSet_ne _ _ _ _ (fun he => hip he.symm)
      rw [hhead]
      cases hrest : alGet rest i with
      | none => rw [hsc]
      | some tfv => rw [hsc]

/-- The score map after the query fold: document `i` has an entry iff some
query token occurs in it, and that entry's value is the sum of the guarded
contributions of all query tokens. -/
theorem scoreFold_build_alGet (docs : List CDoc) :
    ∀ (q : List String) (scores : List (Nat × ℝ)) (i : Nat),
      alGet (scoreFold (buildInverted docs) docs.length q scores) i =
        if ∃ t ∈ q, 0 < tf docs t i then
          some ((alGet scores i).getD 0 + (q.map (fun t => lexContribution docs t i)).sum)
        else alGet scores i := by
  intro q
  induction q with
  | nil =>
    intro scores i
    simp [scoreFold]
  | cons t ts ih =>
    intro scores i
    rw [scoreFold]
    have hbi := buildInverted_alGet docs t
    cases hget : alGet (buildInverted docs) t with
    | none =>
      show alGet (scoreFold (buildInverted docs) docs.length ts scores) i = _
      have hpost : postingsFrom 0 docs t = [] := (hbi.2).mp hget
      have htf : tf docs t i = 0 := by
        by_contra hne
        have hpos : 0 < tf docs t i := Nat.pos_of_ne_zero hne
        have hmem := (postingsFrom_zero_mem docs t i (tf docs t i)).mpr ⟨hpos, rfl⟩
        rw [hpost] at hmem
        simp at hmem
      rw [ih scores i]
      have hcontrib : lexContribution docs t i = 0 := by
        rw [lexContribution, if_neg (by omega)]
      have hex : (∃ u ∈ t :: ts, 0 < tf docs u i) ↔ (∃ u ∈ ts, 0 < tf docs u i) := by
        constructor
        · intro hh
          obtain ⟨u, hu, hpos⟩ := hh
          rcases List.mem_cons.mp hu with h2 | h2
          · subst h2; omega
          · exact ⟨u, h2, hpos⟩
        · intro hh
          obtain ⟨u, hu, hpos⟩ := hh
          exact ⟨u, List.mem_cons_of_mem t hu, hpos⟩
      by_cases hext : ∃ u ∈ ts, 0 < tf docs u i
      · rw [if_pos hext, if_pos (hex.mpr hext), List.map_cons, List.sum_cons, hcontrib,
          zero_add]
      · rw [if_neg hext, if_neg (fun hh => hext (hex.mp hh))]
    | some postings =>
      show alGet (scoreFold (buildInverted docs) docs.length ts
        (postingsFold (Real.log (1 + (docs.length : ℝ) / (1 + (postings.length : ℝ))))
          postings scores)) i = _
      have hpost : postings = postingsFrom 0 docs t := by
        have h1 := hbi.1
        rw [hget, Option.getD_some] at h1
        exact h1
      have hplen : (postings.length : ℝ) = (df docs t : ℝ) := by
        rw [hpost, postingsFrom_length t docs 0]
      have hfold := postingsFold_alGet
        (Real.log (1 + (docs.length : ℝ) / (1 + (postings.length : ℝ)))) postings scores i
        (hpost ▸ postingsFrom_pairwise t docs 0)
      rw [ih _ i]
      by_cases htf : 0 < tf docs t i
      · have hmem : (i, tf docs t i) ∈ postingsFrom 0 docs t :=
          (postingsFrom_zero_mem docs t i (tf docs t i)).mpr ⟨htf, rfl⟩
        have halget : alGet postings i = some (tf docs t i) := by
          rw [hpost]
          exact (alGet_of_pairwise_lt _ (postingsFrom_pairwise t docs 0) i _).mpr hmem
        rw [halget] at hfold
        have hfold2 : alGet (postingsFold
            (Real.log (1 + (docs.length : ℝ) / (1 + (postings.length : ℝ))))
            postings scores) i =
            some ((alGet scores i).getD 0 + (1 + Real.log (1 + (tf docs t i : ℝ))) *
              Real.log (1 + (docs.length : ℝ) / (1 + (postings.length : ℝ)))) := hfold
        have hcontrib : lexContribution docs t i =
            (1 + Real.log (1 + (tf docs t i : ℝ))) *
              Real.log (1 + (docs.length : ℝ) / (1 + (df docs t : ℝ))) := by
          rw [lexContribution, if_pos htf]
        by_cases hext : ∃ u ∈ ts, 0 < tf docs u i
        · rw [if_pos hext, hfold2, Option.getD_some,
            if_pos (show ∃ u ∈ t :: ts, 0 < tf docs u i from ⟨t, List.mem_cons_self t ts, htf⟩),
            List.map_cons, List.sum_cons, hcontrib, hplen, add_assoc]
        · rw [if_neg hext, hfold2,
            if_pos (show ∃ u ∈ t :: ts, 0 < tf docs u i from ⟨t, List.mem_cons_self t ts, htf⟩),
            List.map_cons, List.sum_cons, hcontrib, hplen]
          have hsum : (ts.map (fun u => lexContribution docs u i)).sum = 0 := by
            refine List.sum_eq_zero ?_
            intro x hx
            obtain ⟨u, hu, hxu⟩ := List.mem_map.mp hx
            rw [← hxu, lexContribution, if_neg (fun hpos => hext ⟨u, hu, hpos⟩)]
          rw [hsum, add_zero]
      · have halget : alGet postings i = none := by
          rw [hpost]
          refine alGet_eq_none_of_forall _ _ ?_
          intro p hp heq
          have hmem2 : (p.1, p.2) ∈ postingsFrom 0 docs t := by
            have hpp : p = (p.1, p.2) := rfl
            rw [← hpp]; exact hp
          have h4 := ((postingsFrom_zero_mem docs t p.1 p.2).mp hmem2).1
          rw [heq] at h4
          exact htf h4
        rw [halget] at hfold
        have hfold2 : alGet (postingsFold
            (Real.log (1 + (docs.length : ℝ) / (1 + (postings.length : ℝ))))
            postings scores) i = alGet scores i := hfold
        have hcontrib : lexContribution docs t i = 0 := by
          rw [lexContribution, if_neg htf]
        have hex : (∃ u ∈ t :: ts, 0 < tf docs u i) ↔ (∃ u ∈ ts, 0 < tf docs u i) := by
          constructor
          · intro hh
            obtain ⟨u, hu, hpos⟩ := hh
            rcases List.mem_cons.mp hu with h2 | h2
            · subst h2; exact absurd hpos htf
            · exact ⟨u, h2, hpos⟩
          · intro hh
            obtain ⟨u, hu, hpos⟩ := hh
            exact ⟨u, List.mem_cons_of_mem t hu, hpos⟩
        by_cases hext : ∃ u ∈ ts, 0 < tf docs u i
        · rw [if_pos hext, hfold2, if_pos (hex.mpr hext), List.map_cons, List.sum_cons,
            hcontrib, zero_add]
        · rw [if_neg hext, hfold2, if_neg (fun hh => hext (hex.mp hh))]

/-- The postings fold keeps the score map's keys distinct. -/
theorem postingsFold_keys_nodup (idf : ℝ) (postings : List (Nat × Nat)) :
    ∀ scores : List (Nat × ℝ), (scores.map Prod.fst).Nodup →
      ((postingsFold idf postings scores).map Prod.fst).Nodup := by
  induction postings with
  | nil => intro scores h; exact h
  | cons p rest ih =>
    intro scores h
    rw [postingsFold_cons]
    exact ih _ (alSet_keys_nodup _ _ _ h)

/-- The query fold keeps the score map's keys distinct. -/
theorem scoreFold_keys_nodup (inv : List (String × List (Nat × Nat))) (n : Nat) :
    ∀ (q : List String) (scores : List (Nat × ℝ)), (scores.map Prod.fst).Nodup →
      ((scoreFold inv n q scores).map Prod.fst).Nodup := by
  intro q
  induction q with
  | nil => intro scores h; exact h
  | cons t ts ih =>
    intro scores h
    rw [scoreFold]
    cases alGet inv t with
    | none => exact ih scores h
    | some postings => exact ih _ (postingsFold_keys_nodup _ postings scores h)

/-- **C7 (amended)**: the lexical index scores each document with at least
one matching query token as the sum, over the query tokens occurring in that
document (tokens with `tf = 0` contribute nothing — the literal unguarded
formula of the claim fails, see the counterexample), of
`(1 + ln(1 + tf)) * ln(1 + N / (1 + df))`, divided by
`sqrt(max 1 (document token count))`; documents with no matching token get
no score entry at all, and the returned results are the first `K` entries of
the stable descending sort of these scores, reported rounded to 4 decimal
places. -/
theorem c7_lex_scoring_amended (docs : List CDoc) (query : String) (limit : Nat) :
    (∀ p ∈ lexEntries docs query, p.2 =
      ((tokenize query).map (fun t => lexContribution docs t p.1)).sum) ∧
    (∀ i : Nat, (alGet (lexEntries docs query) i).isSome = true ↔
      ∃ t ∈ tokenize query, 0 < tf docs t i) ∧
    searchLex docs query limit =
      ((sortDesc (normalizeScores docs (lexEntries docs query))).take limit).map
        (fun p => RRes.mk (getDoc docs p.1).id (getDoc docs p.1).text (round4 p.2)) ∧
    (∀ r ∈ searchLex docs query limit, ∃ i : Nat,
      r.id = (getDoc docs i).id ∧ r.text = (getDoc docs i).text ∧
      r.score = round4 (lexScore docs (tokenize query) i)) ∧
    (searchLex docs query limit).length ≤ limit ∧
    (sortDesc (normalizeScores docs (lexEntries docs query))).Pairwise
      (fun a b => b.2 ≤ a.2) ∧
    List.Perm (sortDesc (normalizeScores docs (lexEntries docs query)))
      (normalizeScores docs (lexEntries docs query)) := by
  have hnodup : ((lexEntries docs query).map Prod.fst).Nodup := by
    rw [lexEntries]
    exact scoreFold_keys_nodup (buildInverted docs) docs.length (tokenize query) []
      (by simp)
  have hval : ∀ p ∈ lexEntries docs query, p.2 =
      ((tokenize query).map (fun t => lexContribution docs t p.1)).sum := by
    intro p hp
    have hmem : (p.1, p.2) ∈ lexEntries docs query := by
      have hpp : p = (p.1, p.2) := rfl
      rw [← hpp]; exact hp
    have hsome : alGet (lexEntries docs query) p.1 = some p.2 :=
      (alGet_eq_some_iff_of_nodup _ hnodup p.1 p.2).mpr hmem
    rw [lexEntries, scoreFold_build_alGet docs (tokenize query) [] p.1] at hsome
    by_cases hex : ∃ t ∈ tokenize query, 0 < tf docs t p.1
    · rw [if_pos hex] at hsome
      have h2 := Option.some_inj.mp hsome
      rw [show alGet ([] : List (Nat × ℝ)) p.1 = none from rfl] at h2
      rw [Option.getD_none, zero_add] at h2
      exact h2.symm
    · rw [if_neg hex] at hsome
      exact absurd hsome (by simp [alGet])
  refine ⟨hval, ?_, rfl, ?_, ?_, sortDesc_pairwise _, sortDesc_perm _⟩
  · intro i
    rw [lexEntries, scoreFold_build_alGet docs (tokenize query) [] i]
    by_cases hex : ∃ t ∈ tokenize query, 0 < tf docs t i
    · rw [if_pos hex]
      simp [hex]
    · rw [if_neg hex]
      simp [alGet, hex]
  · intro r hr
    rw [searchLex] at hr
    obtain ⟨p, hp, hpr⟩ := List.mem_map.mp hr
    have hp2 : p ∈ sortDesc (normalizeScores docs (lexEntries docs query)) :=
      (List.take_sublist _ _).mem hp
    have hp3 : p ∈ normalizeScores docs (lexEntries docs query) :=
      (sortDesc_perm _).mem_iff.mp hp2
    rw [normalizeScores] at hp3
    obtain ⟨q0, hq0, hq0p⟩ := List.mem_map.mp hp3
    refine ⟨q0.1, ?_, ?_, ?_⟩
    · rw [← hpr, ← hq0p]
    · rw [← hpr, ← hq0p]
    · rw [← hpr, ← hq0p]
      show round4 (q0.2 / Real.sqrt (max 1 ((tokensAt docs q0.1).length : ℝ))) =
        round4 (lexScore docs (tokenize query) q0.1)
      rw [hval q0 hq0, lexScore]
  · rw [searchLex, List.length_map]
    exact List.length_take_le _ _

/-- Rounded scores of values at least 1 are positive. -/
theorem round4_pos {x : ℝ} (h : 1 ≤ x) : 0 < round4 x := by
  rw [round4]
  have h1 : (10000 : ℤ) ≤ round (x * 10000) := by
    rw [round_eq]
    refine Int.le_floor.mpr ?_
    push_cast
    linarith
  have h2 : (10000 : ℝ) ≤ ((round (x * 10000) : ℤ) : ℝ) := by exact_mod_cast h1
  linarith

/-- Two-document corpus for the C7 counterexample: only document 0 contains
the query term. -/
def docsC7 : List CDoc := [CDoc.mk "1" "aa", CDoc.mk "2" "bb"]

/-- Counterexample to C7 as stated: the claim's formula sums over the query
terms *present in the inverted index*, so for the query `aa` it assigns
document 1 (text `bb`, which does not contain `aa`) the score
`(1 + ln(1 + 0)) * ln(1 + 2/2) = ln 2 > 0`; the top-25 results under that
scoring would therefore contain both documents.  The source only ever scores
documents that appear in a matching term's postings list: its result is the
single document `"1"`. -/
theorem c7_unguarded_formula_counterexample :
    (searchLex docsC7 "aa" 25).map RRes.id = ["1"] ∧
    tf docsC7 "aa" 1 = 0 ∧
    0 < lexScoreClaimed docsC7 (tokenize "aa") 1 := by
  refine ⟨?_, rfl, ?_⟩
  · obtain ⟨v, hv⟩ : ∃ v, lexEntries docsC7 "aa" = [(0, v)] := ⟨_, rfl⟩
    have hout : searchLex docsC7 "aa" 25 =
        [RRes.mk "1" "aa" (round4 (v / Real.sqrt (max 1 ((tokensAt docsC7 0).length : ℝ))))] := by
      rw [searchLex, hv]
      rfl
    rw [hout]
    rfl
  · have htok : tokenize "aa" = ["aa"] := rfl
    have htf1 : tf docsC7 "aa" 1 = 0 := rfl
    have hdf1 : df docsC7 "aa" = 1 := rfl
    have hlen : (docsC7.length : ℝ) = 2 := by norm_num [docsC7]
    have htoklen : ((tokensAt docsC7 1).length : ℝ) = 1 := by
      rw [show tokensAt docsC7 1 = ["bb"] from rfl]
      norm_num
    rw [lexScoreClaimed, htok]
    rw [List.map_cons, List.map_nil, List.sum_cons, List.sum_nil]
    rw [if_pos (by rw [hdf1]; omega), htf1, hdf1, hlen, htoklen]
    have hlog2 : 0 < Real.log 2 := Real.log_pos (by norm_num)
    have hnum : (1 : ℝ) + Real.log (1 + (0 : ℕ)) = 1 := by
      norm_num [Real.log_one]
    rw [show ((1 : ℕ) : ℝ) = 1 by norm_num]
    rw [show (1 : ℝ) + 2 / (1 + 1) = 2 by norm_num]
    rw [show max (1 : ℝ) 1 = 1 by norm_num, Real.sqrt_one, div_one, add_zero]
    rw [show ((0 : ℕ) : ℝ) = 0 by norm_num]
    rw [show (1 : ℝ) + 0 = 1 by norm_num, Real.log_one, add_zero, one_mul]
    exact hlog2

/-- The scenario library of C8. -/
def libC8 : List CDoc :=
  [CDoc.mk "1" "apply grease", CDoc.mk "2" "damp cloth", CDoc.mk "3" "use solvent"]

/-- **C8**: on the scenario library, lexical search for `use a damp cloth`
returns id `"2"` as the unique result, with a strictly positive score —
`use` and `a` are stopwords, doc 2 shares both remaining tokens `damp` and
`cloth`, and the other documents share none (so they receive no score entry
at all and rank strictly below). -/
theorem c8_damp_cloth_ranks_first :
    (searchLex libC8 "use a damp cloth" 25).map RRes.id = ["2"] ∧
    ∀ r ∈ searchLex libC8 "use a damp cloth" 25, 0 < r.score := by
  obtain ⟨v, hv⟩ : ∃ v, lexEntries libC8 "use a damp cloth" = [(1, v)] := ⟨_, rfl⟩
  have hout : searchLex libC8 "use a damp cloth" 25 =
      [RRes.mk "2" "damp cloth"
        (round4 (v / Real.sqrt (max 1 ((tokensAt libC8 1).length : ℝ))))] := by
    rw [searchLex, hv]
    rfl
  have hvsum : v = ((tokenize "use a damp cloth").map
      (fun t => lexContribution libC8 t 1)).sum := by
    have hsome : alGet (lexEntries libC8 "use a damp cloth") 1 = some v := by
      rw [hv, alGet]
      rfl
    rw [lexEntries, scoreFold_build_alGet libC8 (tokenize "use a damp cloth") [] 1,
      if_pos ⟨"damp", by decide, by decide⟩] at hsome
    have h2 := Option.some_inj.mp hsome
    rw [show alGet ([] : List (Nat × ℝ)) 1 = none from rfl, Option.getD_none, zero_add] at h2
    exact h2.symm
  have hcd : lexContribution libC8 "damp" 1 = (1 + Real.log 2) * Real.log (5 / 2) := by
    rw [lexContribution, if_pos (by decide)]
    rw [show tf libC8 "damp" 1 = 1 from rfl, show df libC8 "damp" = 1 from rfl]
    norm_num [libC8]
  have hcc : lexContribution libC8 "cloth" 1 = (1 + Real.log 2) * Real.log (5 / 2) := by
    rw [lexContribution, if_pos (by decide)]
    rw [show tf libC8 "cloth" 1 = 1 from rfl, show df libC8 "cloth" = 1 from rfl]
    norm_num [libC8]
  have hvval : v = 2 * ((1 + Real.log 2) * Real.log (5 / 2)) := by
    rw [hvsum, show tokenize "use a damp cloth" = ["damp", "cloth"] from rfl]
    rw [List.map_cons, List.map_cons, List.map_nil, List.sum_cons, List.sum_cons,
      List.sum_nil, hcd, hcc]
    ring
  have hlog2 := Real.log_two_gt_d9
  have hlog52 : Real.log 2 ≤ Real.log (5 / 2) :=
    (Real.log_le_log_iff (by norm_num) (by norm_num)).mpr (by norm_num)
  have hsqrt2 : Real.sqrt 2 ≤ 1.5 :=
    Real.sqrt_le_iff.mpr (by norm_num)
  have htoklen : ((tokensAt libC8 1).length : ℝ) = 2 := by
    rw [show tokensAt libC8 1 = ["damp", "cloth"] from rfl]
    norm_num
  have hscore : 1 ≤ v / Real.sqrt (max 1 ((tokensAt libC8 1).length : ℝ)) := by
    rw [htoklen, show max (1 : ℝ) 2 = 2 by norm_num]
    have hs2pos : 0 < Real.sqrt 2 := Real.sqrt_pos.mpr (by norm_num)
    rw [one_le_div hs2pos, hvval]
    nlinarith [hlog2, hlog52]
  constructor
  · rw [hout]
    rfl
  · intro r hr
    rw [hout] at hr
    rcases List.mem_cons.mp hr with h2 | h2
    · rw [h2]
      exact round4_pos hscore
    · simp at h2

/-! ## CSV persistence layer (src/unnamed/part_001, 3-column format)

`parseCSVRow` scans a row character by character with quote handling (a
doubled quote inside a quoted field is an escaped quote); `formatCSVRow`
writes `id,"escaped text","escaped JSON array"` with `""` for a missing
embedding.  Rows are modelled as `List Char`; the JSON embedding payload is
serialized through an abstract element serializer `numToStr` (JSON numbers
round-trip exactly through `JSON.stringify`/`JSON.parse`, which the
hypotheses on `numToStr`/`numParse` capture), and `parseJsonNumArray` stands
in for `JSON.parse` on the array strings the serializer produces.  Line
splitting models `split(/\r?\n/)` for content without carriage returns. -/

/-- The character scanner of `parseCSVRow`: `inQ` is the `inQuotes` flag,
`cur` the current field. -/
def csvScan : List Char → Bool → List Char → List (List Char)
  | [], _, cur => [cur]
  | c :: rest, inQ, cur =>
    if c = '"' then
      if inQ then
        match rest with
        | c2 :: rest2 =>
          if c2 = '"' then csvScan rest2 true (cur ++ ['"'])
          else csvScan (c2 :: rest2) false cur
        | [] => csvScan [] false cur
      else csvScan rest true cur
    else if c = ',' ∧ inQ = false then cur :: csvScan rest false []
    else csvScan rest inQ (cur ++ [c])

/-- `parseCSVRow(row)`. -/
def parseCSVRow (row : List Char) : List (List Char) := csvScan row false []

/-- `text.replace(/"/g, '""')`. -/
def escQuotes : List Char → List Char
  | [] => []
  | c :: rest => if c = '"' then '"' :: '"' :: escQuotes rest else c :: escQuotes rest

/-- Join with a separator (used by the JSON array serializer). -/
def joinSep (sep : Char) : List (List Char) → List Char
  | [] => []
  | [x] => x
  | x :: y :: rest => x ++ sep :: joinSep sep (y :: rest)

/-- `JSON.stringify` of a number array, via the element serializer. -/
def jsonArr {ν : Type} (numToStr : ν → List Char) (l : List ν) : List Char :=
  '[' :: joinSep ',' (l.map numToStr) ++ [']']

/-- `formatCSVRow(id, text, embedding)`. -/
def formatCSVRow {ν : Type} (numToStr : ν → List Char) (id text : List Char)
    (emb : Option (List ν)) : List Char :=
  id ++ ',' :: '"' :: (escQuotes text ++ '"' :: ',' ::
    (match emb with
     | some l =>
       if l.isEmpty then ['"', '"']
       else '"' :: (escQuotes (jsonArr numToStr l) ++ ['"'])
     | none => ['"', '"']))

/-- Split on a separator character (JS `String.split` on one character). -/
def splitCh (sep : Char) : List Char → List (List Char)
  | [] => [[]]
  | c :: rest =>
    if c = sep then [] :: splitCh sep rest
    else
      match splitCh sep rest with
      | [] => [[c]]
      | g :: gs => (c :: g) :: gs

/-- `JSON.parse` restricted to arrays of numbers — the only payloads the
cache writer produces. -/
def parseJsonNumArray {ν : Type} (numParse : List Char → Option ν) (s : List Char) :
    Option (List ν) :=
  match s with
  | '[' :: rest =>
    if rest.getLast? = some ']' then
      if rest.dropLast.isEmpty then some []
      else optList numParse (splitCh ',' rest.dropLast)
    else none
  | _ => none

/-- `String.trim`. -/
def trimCh (l : List Char) : List Char :=
  ((l.dropWhile Char.isWhitespace).reverse.dropWhile Char.isWhitespace).reverse

/-- Decimal digits of a natural number (JS `String(n)`), fuelled. -/
def natDigitsAux : Nat → Nat → List Char
  | 0, _ => []
  | fuel + 1, n =>
    if n < 10 then [Char.ofNat (48 + n)]
    else natDigitsAux fuel (n / 10) ++ [Char.ofNat (48 + n % 10)]

/-- JS `String(n)` for a natural number. -/
def natDigits (n : Nat) : List Char := natDigitsAux (n + 1) n

/-- JS `String(i)` for an integer. -/
def intDigits (i : Int) : List Char :=
  if i < 0 then '-' :: natDigits (-i).toNat else natDigits i.toNat

/-- Accumulate the numeric value of a digit run. -/
def digitsVal : List Char → Nat → Nat
  | [], acc => acc
  | c :: rest, acc => digitsVal rest (acc * 10 + (c.toNat - 48))

/-- JS `parseInt(s, 10)`: skip leading whitespace, optional sign, read the
leading digit run; `none` models `NaN`. -/
def jsParseInt (s : List Char) : Option Int :=
  let t := s.dropWhile Char.isWhitespace
  match t with
  | '-' :: rest =>
    let ds := rest.takeWhile Char.isDigit
    if ds.isEmpty then none else some (-(digitsVal ds 0 : Int))
  | '+' :: rest =>
    let ds := rest.takeWhile Char.isDigit
    if ds.isEmpty then none else some ((digitsVal ds 0 : Int))
  | _ =>
    let ds := t.takeWhile Char.isDigit
    if ds.isEmpty then none else some ((digitsVal ds 0 : Int))

/-- JS `String.includes`. -/
def includesStr : List Char → List Char → Bool
  | [], n => n.isEmpty
  | c :: rest, n => List.isPrefixOf n (c :: rest) || includesStr rest n

/-- `buf.split(/\r?\n/).filter(Boolean)` for content without `\r`. -/
def csvLines (buf : List Char) : List (List Char) :=
  (splitCh '\n' buf).filter (fun l => !l.isEmpty)

/-- The accumulated parse state of the 3-column loader. -/
structure ParsedLib (ν : Type) where
  docs : List (List Char × List Char)
  embs : List (Option (List ν))
  needTexts : List (List Char)
  needIdxs : List Nat

/-- The initial parse state. -/
def emptyParsed (ν : Type) : ParsedLib ν := ParsedLib.mk [] [] [] []

/-- Classification of one embedding cell: missing, blank, `""`, invalid
JSON, a non-array, or an empty array all mean "needs computing". -/
def rowEmb {ν : Type} (numParse : List Char → Option ν) (embF : List Char) :
    Option (List ν) :=
  if embF.isEmpty then none
  else if (trimCh embF).isEmpty then none
  else if embF = ['"', '"'] then none
  else
    match parseJsonNumArray numParse embF with
    | some l => if l.isEmpty then none else some l
    | none => none

/-- One iteration of the row loop of `loadLibraryEmbeddings`: skip blank
lines and rows without text, default a missing id to the running count, and
classify the row's embedding cell. -/
def parseStep {ν : Type} (numParse : List Char → Option ν) (st : ParsedLib ν)
    (line : List Char) : ParsedLib ν :=
  if (trimCh line).isEmpty then st
  else
    let fields := parseCSVRow line
    let textF := fields.getD 1 []
    if textF.isEmpty then st
    else
      let idF := fields.getD 0 []
      let id := if idF.isEmpty then natDigits (st.docs.length + 1) else idF
      let emb := rowEmb numParse (fields.getD 2 [])
      ParsedLib.mk (st.docs ++ [(id, trimCh textF)]) (st.embs ++ [emb])
        (if emb.isSome then st.needTexts else st.needTexts ++ [trimCh textF])
        (if emb.isSome then st.needIdxs else st.needIdxs ++ [st.docs.length])

/-- The row loop of `loadLibraryEmbeddings`. -/
def parseLines {ν : Type} (numParse : List Char → Option ν)
    (lines : List (List Char)) (st : ParsedLib ν) : ParsedLib ν :=
  lines.foldl (parseStep numParse) st

/-- Join rows, terminating each with a newline. -/
def joinRows : List (List Char) → List Char
  | [] => []
  | r :: rs => r ++ '\n' :: joinRows rs

/-- The 3-column header. -/
def csvHeader : List Char := "id,text,embedding".toList

/-- The CSV content the loader writes back. -/
def mkCsvContent {ν : Type} (numToStr : ν → List Char)
    (docs : List (List Char × List Char)) (embs : List (Option (List ν))) : List Char :=
  csvHeader ++ '\n' ::
    joinRows ((docs.zip embs).map (fun q => formatCSVRow numToStr q.1.1 q.1.2 q.2))

/-- `embeddings[indices[i]] = newEmbeddings[i]` for all `i`. -/
def spliceEmbs {ν : Type} (embs : List (Option (List ν))) (idxs : List Nat)
    (news : List (List ν)) : List (Option (List ν)) :=
  (idxs.zip news).foldl (fun acc q => acc.set q.1 (some q.2)) embs

/-- Typed errors of the 3-column loader. -/
inductive LoadErr where
  | badFormat
  | embedFail (e : CoordErr)
  | countMismatch
  | missingEmbeddings
deriving DecidableEq

/-- The loader's successful result: parsed documents, one embedding per
document, and the CSV content on disk afterwards. -/
structure LoadResult (ν : Type) where
  docs : List (List Char × List Char)
  finalEmbs : List (List ν)
  csvOut : List Char

/-- `loadLibraryEmbeddings(csvPath)` for the 3-column format: parse, compute
only the missing embeddings through `generateBatchEmbeddings` (with its
default options, as the source calls it), splice them into their positions,
rewrite the CSV, and fail loudly on any count mismatch. -/
def loadLibraryEmbeddings {ν : Type} (p : Provider (List Char) (List ν))
    (numToStr : ν → List Char) (numParse : List Char → Option ν)
    (buf : List Char) : Except LoadErr (LoadResult ν) :=
  let lines := csvLines buf
  if !includesStr (lines.headD []) ("embedding".toList) then Except.error LoadErr.badFormat
  else
    let st := parseLines numParse lines.tail (emptyParsed ν)
    if st.needTexts.isEmpty then
      let finals := st.embs.filterMap (fun e => e)
      if finals.length ≠ st.docs.length then Except.error LoadErr.missingEmbeddings
      else Except.ok (LoadResult.mk st.docs finals buf)
    else
      match (generateBatchEmbeddings p defaultOptions st.needTexts).1 with
      | Except.error e => Except.error (LoadErr.embedFail e)
      | Except.ok newEmbs =>
        if newEmbs.length ≠ st.needTexts.length then Except.error LoadErr.countMismatch
        else
          let embs2 := spliceEmbs st.embs st.needIdxs newEmbs
          let finals := embs2.filterMap (fun e => e)
          if finals.length ≠ st.docs.length then Except.error LoadErr.missingEmbeddings
          else Except.ok (LoadResult.mk st.docs finals (mkCsvContent numToStr st.docs embs2))

/-- The `maxId` scan of `addTextsToLibrary`. -/
def maxIdOf (buf : List Char) : Int :=
  ((csvLines buf).tail).foldl (fun m line =>
    if (trimCh line).isEmpty then m
    else
      match jsParseInt ((parseCSVRow line).getD 0 []) with
      | some v => if m < v then v else m
      | none => m) 0

/-- `String(n).padStart(8, '0')`. -/
def padStart8 (s : List Char) : List Char := List.replicate (8 - s.length) '0' ++ s

/-- The pure content step of `addTextsToLibrary`: append one row per new
text, with fresh zero-padded sequential ids and an empty embedding cell. -/
def appendTexts {ν : Type} (numToStr : ν → List Char) (buf : List Char)
    (newTexts : List (List Char)) : List Char :=
  let base := if buf.getLast? = some '\n' then buf else buf ++ ['\n']
  base ++ joinRows ((enumIdx 0 newTexts).map (fun q =>
    formatCSVRow numToStr (padStart8 (intDigits (maxIdOf buf + q.1 + 1))) q.2 none))

/-- `addTextsToLibrary(csvPath, newTexts)`: append the rows, then reload,
which computes embeddings for exactly the new rows. -/
def addTextsToLibrary {ν : Type} (p : Provider (List Char) (List ν))
    (numToStr : ν → List Char) (numParse : List Char → Option ν)
    (buf : List Char) (newTexts : List (List Char)) : Except LoadErr (LoadResult ν) :=
  loadLibraryEmbeddings p numToStr numParse (appendTexts numToStr buf newTexts)

/-! ### Scanner lemmas -/

/-- A comma outside quotes ends the current field. -/
theorem csvScan_comma (rest cur : List Char) :
    csvScan (',' :: rest) false cur = cur :: csvScan rest false [] := by
  rw [csvScan.eq_def]
  dsimp only
  rw [if_neg (by decide), if_pos ⟨rfl, rfl⟩]

/-- An ordinary character is appended to the current field. -/
theorem csvScan_char {c : Char} {inQ : Bool} (h1 : c ≠ '"')
    (h2 : ¬(c = ',' ∧ inQ = false)) (rest cur : List Char) :
    csvScan (c :: rest) inQ cur = csvScan rest inQ (cur ++ [c]) := by
  rw [csvScan.eq_def]
  dsimp only
  rw [if_neg h1, if_neg h2]

/-- A quote outside quotes opens a quoted section. -/
theorem csvScan_openQuote (rest cur : List Char) :
    csvScan ('"' :: rest) false cur = csvScan rest true cur := by
  rw [csvScan.eq_def]
  dsimp only
  rw [if_pos rfl, if_neg (by decide)]

/-- A doubled quote inside quotes is an escaped quote character. -/
theorem csvScan_escQuote (rest cur : List Char) :
    csvScan ('"' :: '"' :: rest) true cur = csvScan rest true (cur ++ ['"']) := by
  show (if ('"' : Char) = '"' then csvScan rest true (cur ++ ['"'])
        else csvScan ('"' :: rest) false cur) = csvScan rest true (cur ++ ['"'])
  rw [if_pos rfl]

/-- A lone quote inside quotes closes the quoted section. -/
theorem csvScan_closeQuote {c : Char} (h : c ≠ '"') (rest cur : List Char) :
    csvScan ('"' :: c :: rest) true cur = csvScan (c :: rest) false cur := by
  show (if c = '"' then csvScan rest true (cur ++ ['"'])
        else csvScan (c :: rest) false cur) = csvScan (c :: rest) false cur
  rw [if_neg h]

/-- Scanning an unquoted id segment up to the next comma yields that id. -/
theorem csvScan_id (id : List Char) (hid : ∀ c ∈ id, c ≠ '"' ∧ c ≠ ',') :
    ∀ rest cur, csvScan (id ++ ',' :: rest) false cur = (cur ++ id) :: csvScan rest false [] := by
  induction id with
  | nil =>
    intro rest cur
    rw [List.nil_append, csvScan_comma, List.append_nil]
  | cons c id ih =>
    intro rest cur
    have h := hid c (List.mem_cons_self c id)
    rw [List.cons_append, csvScan_char h.1 (fun hc => h.2 hc.1),
      ih (fun d hd => hid d (List.mem_cons_of_mem c hd)) rest (cur ++ [c]),
      List.append_assoc]
    rfl

/-- Scanning an escaped text segment inside quotes, up to the closing quote,
recovers the original text (the next character must not be a quote). -/
theorem csvScan_text (t : List Char) :
    ∀ rest, rest.head? ≠ some '"' →
      ∀ cur, csvScan (escQuotes t ++ '"' :: rest) true cur = csvScan rest false (cur ++ t) := by
  induction t with
  | nil =>
    intro rest hr cur
    cases rest with
    | nil =>
      show csvScan ['"'] true cur = csvScan [] false (cur ++ [])
      rw [List.append_nil]
      rfl
    | cons c2 r2 =>
      have h2 : c2 ≠ '"' := by
        intro h
        exact hr (by rw [h]; rfl)
      show csvScan ('"' :: c2 :: r2) true cur = csvScan (c2 :: r2) false (cur ++ [])
      rw [csvScan_closeQuote h2, List.append_nil]
  | cons c t ih =>
    intro rest hr cur
    by_cases hc : c = '"'
    · subst hc
      show csvScan ('"' :: '"' :: (escQuotes t ++ '"' :: rest)) true cur =
        csvScan rest false (cur ++ '"' :: t)
      rw [csvScan_escQuote, ih rest hr (cur ++ ['"']), List.append_assoc]
      rfl
    · rw [show escQuotes (c :: t) = c :: escQuotes t from by rw [escQuotes, if_neg hc],
        List.cons_append, csvScan_char hc (by simp) _ cur, ih rest hr (cur ++ [c]),
        List.append_assoc]
      rfl

/-- The empty quoted field `""` scans to an empty field. -/
theorem csvScan_twoQuotes (cur : List Char) : csvScan ['"', '"'] false cur = [cur] := by
  rw [csvScan_openQuote]
  show csvScan [] false cur = [cur]
  rfl

/-- The head of a list starting with a non-quote character is not a quote. -/
theorem head_cons_ne_quote {c : Char} (h : c ≠ '"') (rest : List Char) :
    (c :: rest).head? ≠ some '"' := by
  rw [List.head?_cons]
  intro hcontra
  exact h (Option.some.inj hcontra)

/-- `parseCSVRow` inverts `formatCSVRow`: a formatted row parses back to
exactly three fields — the id, the original text, and the embedding cell
(the JSON array, or empty when there is no embedding). -/
theorem parseCSVRow_format {ν : Type} (numToStr : ν → List Char) (id text : List Char)
    (emb : Option (List ν)) (hid : ∀ c ∈ id, c ≠ '"' ∧ c ≠ ',')
    (hemb : ∀ l, emb = some l → l ≠ []) :
    parseCSVRow (formatCSVRow numToStr id text emb) =
      [id, text, (emb.map (jsonArr numToStr)).getD []] := by
  cases emb with
  | none =>
    show csvScan (id ++ ',' :: '"' :: (escQuotes text ++ '"' :: ',' :: ['"', '"']))
        false [] = [id, text, []]
    rw [csvScan_id id hid, csvScan_openQuote, csvScan_text text (',' :: ['"', '"'])
      (head_cons_ne_quote (by decide) _) [], csvScan_comma, csvScan_twoQuotes,
      List.nil_append, List.nil_append]
  | some l =>
    have hl : l.isEmpty = false := by
      cases l with
      | nil => exact absurd rfl (hemb [] rfl)
      | cons a as => rfl
    show csvScan (id ++ ',' :: '"' :: (escQuotes text ++ '"' :: ',' ::
        (if l.isEmpty then ['"', '"']
         else '"' :: (escQuotes (jsonArr numToStr l) ++ ['"'])))) false [] =
      [id, text, jsonArr numToStr l]
    rw [hl]
    show csvScan (id ++ ',' :: '"' :: (escQuotes text ++ '"' :: ',' ::
        ('"' :: (escQuotes (jsonArr numToStr l) ++ ['"'])))) false [] =
      [id, text, jsonArr numToStr l]
    rw [csvScan_id id hid, csvScan_openQuote,
      csvScan_text text (',' :: '"' :: (escQuotes (jsonArr numToStr l) ++ ['"']))
        (head_cons_ne_quote (by decide) _) [],
      csvScan_comma, csvScan_openQuote]
    rw [show escQuotes (jsonArr numToStr l) ++ ['"'] =
      escQuotes (jsonArr numToStr l) ++ '"' :: [] from rfl]
    rw [csvScan_text (jsonArr numToStr l) [] (by decide) []]
    rw [List.nil_append, List.nil_append]
    rfl

/-! ### JSON array round trip -/

/-- Splitting a separator-free string is the identity (one chunk). -/
theorem splitCh_of_notMem {sep : Char} {l : List Char} (h : sep ∉ l) :
    splitCh sep l = [l] := by
  induction l with
  | nil => rfl
  | cons c rest ih =>
    rw [splitCh, if_neg (fun hc => h (by rw [← hc]; exact List.mem_cons_self c rest)),
      ih (fun hm => h (List.mem_cons_of_mem c hm))]

/-- Splitting consumes a separator-free chunk up to the first separator. -/
theorem splitCh_append_sep {sep : Char} {x : List Char} (h : sep ∉ x) (rest : List Char) :
    splitCh sep (x ++ sep :: rest) = x :: splitCh sep rest := by
  induction x with
  | nil => rw [List.nil_append, splitCh, if_pos rfl]
  | cons c xs ih =>
    rw [List.cons_append, splitCh,
      if_neg (fun hc => h (by rw [← hc]; exact List.mem_cons_self c xs)),
      ih (fun hm => h (List.mem_cons_of_mem c hm))]

/-- Splitting inverts joining when no chunk contains the separator. -/
theorem splitCh_joinSep {sep : Char} (xs : List (List Char)) (h : ∀ x ∈ xs, sep ∉ x)
    (hne : xs ≠ []) : splitCh sep (joinSep sep xs) = xs := by
  induction xs with
  | nil => exact absurd rfl hne
  | cons x xs ih =>
    cases xs with
    | nil => exact splitCh_of_notMem (h x (List.mem_cons_self x []))
    | cons y ys =>
      rw [show joinSep sep (x :: y :: ys) = x ++ sep :: joinSep sep (y :: ys) from rfl,
        splitCh_append_sep (h x (List.mem_cons_self x (y :: ys))),
        ih (fun z hz => h z (List.mem_cons_of_mem x hz)) (by simp)]

/-- Element-wise parsing inverts element-wise serialization. -/
theorem optList_map_rt {α β : Type} (f : α → Option β) (g : β → α)
    (hrt : ∀ x, f (g x) = some x) (l : List β) : optList f (l.map g) = some l := by
  induction l with
  | nil => rfl
  | cons x xs ih => rw [List.map_cons, optList, hrt x, ih]

/-- The serialized JSON array is nonempty for a nonempty list. -/
theorem joinSep_map_ne_nil {ν : Type} (numToStr : ν → List Char)
    (hne : ∀ x, numToStr x ≠ []) (l : List ν) (hl : l ≠ []) :
    joinSep ',' (l.map numToStr) ≠ [] := by
  cases l with
  | nil => exact absurd rfl hl
  | cons x xs =>
    cases xs with
    | nil => exact hne x
    | cons y ys =>
      rw [List.map_cons, List.map_cons,
        show joinSep ',' (numToStr x :: numToStr y :: ys.map numToStr) =
          numToStr x ++ ',' :: joinSep ',' (numToStr y :: ys.map numToStr) from rfl]
      intro hcontra
      rcases List.append_eq_nil.mp hcontra with ⟨_, h2⟩
      exact List.noConfusion h2

/-- `JSON.parse` inverts the array serializer on nonempty arrays, provided
the element serializer round-trips and never emits a comma. -/
theorem parseJsonNumArray_jsonArr {ν : Type} (numToStr : ν → List Char)
    (numParse : List Char → Option ν) (l : List ν) (hl : l ≠ [])
    (hrt : ∀ x, numParse (numToStr x) = some x) (hne : ∀ x, numToStr x ≠ [])
    (hc : ∀ x, ',' ∉ numToStr x) :
    parseJsonNumArray numParse (jsonArr numToStr l) = some l := by
  show (if (joinSep ',' (l.map numToStr) ++ [']']).getLast? = some ']' then
      if (joinSep ',' (l.map numToStr) ++ [']']).dropLast.isEmpty then some []
      else optList numParse (splitCh ',' (joinSep ',' (l.map numToStr) ++ [']']).dropLast)
    else none) = some l
  rw [List.getLast?_concat, if_pos rfl, List.dropLast_concat]
  rw [if_neg (fun hcontra =>
    joinSep_map_ne_nil numToStr hne l hl (List.isEmpty_iff.mp hcontra))]
  rw [splitCh_joinSep (l.map numToStr)
    (fun x hx => by
      rcases List.mem_map.mp hx with ⟨v, _, hv⟩
      rw [← hv]
      exact hc v)
    (by simp [hl])]
  exact optList_map_rt numParse numToStr hrt l

/-- C10: for every id string containing no comma and no double-quote, every
text string, and every embedding that is null or a nonempty array of
numbers, `parseCSVRow (formatCSVRow id text emb)` yields exactly three
fields: the id unchanged, the text unchanged, and a third field that is
empty when the embedding is null and otherwise JSON-parses back to the same
embedding array.  Numbers are abstract (`ν`) with a serializer that
round-trips, is nonempty, and never emits a comma — the properties of JSON
number serialization. -/
theorem c10_csv_row_roundtrip {ν : Type} (numToStr : ν → List Char)
    (numParse : List Char → Option ν) (id text : List Char) (emb : Option (List ν))
    (hid : ∀ c ∈ id, c ≠ '"' ∧ c ≠ ',')
    (hemb : ∀ l, emb = some l → l ≠ [])
    (hrt : ∀ x, numParse (numToStr x) = some x)
    (hne : ∀ x, numToStr x ≠ [])
    (hcm : ∀ x, ',' ∉ numToStr x) :
    parseCSVRow (formatCSVRow numToStr id text emb) =
      [id, text, (emb.map (jsonArr numToStr)).getD []] ∧
    (emb = none → (Option.map (jsonArr numToStr) emb).getD [] = []) ∧
    ∀ l, emb = some l →
      parseJsonNumArray numParse ((emb.map (jsonArr numToStr)).getD []) = some l := by
  refine ⟨parseCSVRow_format numToStr id text emb hid hemb, ?_, ?_⟩
  · intro h
    subst h
    rfl
  · intro l h
    subst h
    show parseJsonNumArray numParse (jsonArr numToStr l) = some l
    exact parseJsonNumArray_jsonArr numToStr numParse l (hemb l rfl) hrt hne hcm

/-- A two-valued number type's serializer, for concrete evaluation. -/
def bstr (b : Bool) : List Char := if b then ['1'] else ['0']

/-- The matching parser. -/
def bparse (s : List Char) : Option Bool :=
  if s = ['1'] then some true else if s = ['0'] then some false else none

/-- The round trip evaluated on a concrete row whose text contains a quote
and a comma. -/
theorem c10_csv_row_roundtrip_witness :
    parseCSVRow (formatCSVRow bstr ['7'] ['a', '"', 'b', ',', 'c'] (some [true, false])) =
      [['7'], ['a', '"', 'b', ',', 'c'], ['[', '1', ',', '0', ']']] ∧
    parseJsonNumArray bparse ['[', '1', ',', '0', ']'] = some [true, false] := by
  have h := c10_csv_row_roundtrip bstr bparse ['7'] ['a', '"', 'b', ',', 'c']
    (some [true, false]) (by decide) (fun l hl => by cases hl; decide) (by decide)
    (by decide) (by decide)
  exact ⟨h.1, h.2.2 [true, false] rfl⟩

/-! ### Character and trimming facts -/

/-- A nonempty list is not `isEmpty`. -/
theorem isEmpty_false_of_ne {α : Type} {l : List α} (h : l ≠ []) : l.isEmpty = false := by
  cases l with
  | nil => exact absurd rfl h
  | cons a as => rfl

/-- Trimming a list that contains a non-whitespace character is nonempty. -/
theorem trimCh_ne_nil {l : List Char} {c : Char} (hc : c ∈ l)
    (hw : c.isWhitespace = false) : trimCh l ≠ [] := by
  intro hcontra
  unfold trimCh at hcontra
  have h1 := List.reverse_eq_nil_iff.mp hcontra
  have hsplit : c ∈ l.takeWhile Char.isWhitespace ++ l.dropWhile Char.isWhitespace := by
    rw [List.takeWhile_append_dropWhile]
    exact hc
  have hcd : c ∈ l.dropWhile Char.isWhitespace := by
    rcases List.mem_append.mp hsplit with h2 | h2
    · have := List.mem_takeWhile_imp h2
      rw [hw] at this
      exact absurd this (by decide)
    · exact h2
  have h3 := (List.dropWhile_eq_nil_iff.mp h1) c (List.mem_reverse.mpr hcd)
  rw [hw] at h3
  exact absurd h3 (by decide)

/-- A decimal digit character is not a quote, comma, newline or whitespace. -/
theorem digit_char_ne {c : Char} (h : c.isDigit = true) :
    c ≠ '"' ∧ c ≠ ',' ∧ c ≠ '\n' ∧ c.isWhitespace = false := by
  refine ⟨?_, ?_, ?_, ?_⟩
  · intro hc
    rw [hc] at h
    exact absurd h (by decide)
  · intro hc
    rw [hc] at h
    exact absurd h (by decide)
  · intro hc
    rw [hc] at h
    exact absurd h (by decide)
  · cases hw : c.isWhitespace with
    | false => rfl
    | true =>
      rw [Char.isWhitespace] at hw
      simp only [Bool.or_eq_true, decide_eq_true_eq] at hw
      have hcs : c = ' ' ∨ c = '\t' ∨ c = '\r' ∨ c = '\n' := by tauto
      rcases hcs with h1 | h1 | h1 | h1 <;> rw [h1] at h <;> exact absurd h (by decide)

/-- Every character `natDigitsAux` emits is a decimal digit. -/
theorem natDigitsAux_digits (fuel : Nat) :
    ∀ n : Nat, ∀ c ∈ natDigitsAux fuel n, c.isDigit = true := by
  induction fuel with
  | zero => intro n c hc; exact absurd hc (List.not_mem_nil c)
  | succ m ih =>
    intro n c hc
    rw [natDigitsAux] at hc
    by_cases hn : n < 10
    · rw [if_pos hn] at hc
      have hceq : c = Char.ofNat (48 + n) := List.mem_singleton.mp hc
      subst hceq
      interval_cases n <;> decide
    · rw [if_neg hn] at hc
      rcases List.mem_append.mp hc with h1 | h2
      · exact ih (n / 10) c h1
      · have hceq : c = Char.ofNat (48 + n % 10) := List.mem_singleton.mp h2
        subst hceq
        have hm : n % 10 < 10 := Nat.mod_lt _ (by norm_num)
        generalize hk : n % 10 = k at hm ⊢
        interval_cases k <;> decide

/-- `natDigits` never returns the empty list. -/
theorem natDigits_ne_nil (n : Nat) : natDigits n ≠ [] := by
  rw [natDigits, natDigitsAux]
  by_cases hn : n < 10
  · rw [if_pos hn]
    exact List.cons_ne_nil _ _
  · rw [if_neg hn]
    intro hcontra
    rcases List.append_eq_nil.mp hcontra with ⟨_, h2⟩
    exact List.noConfusion h2

/-- Characters of `intDigits` are digits or a minus sign. -/
theorem mem_intDigits {i : Int} {c : Char} (h : c ∈ intDigits i) :
    c.isDigit = true ∨ c = '-' := by
  rw [intDigits] at h
  by_cases hi : i < 0
  · rw [if_pos hi] at h
    rcases List.mem_cons.mp h with h1 | h2
    · exact Or.inr h1
    · exact Or.inl (natDigitsAux_digits _ _ c h2)
  · rw [if_neg hi] at h
    exact Or.inl (natDigitsAux_digits _ _ c h)

/-- `intDigits` never returns the empty list. -/
theorem intDigits_ne_nil (i : Int) : intDigits i ≠ [] := by
  rw [intDigits]
  by_cases hi : i < 0
  · rw [if_pos hi]
    exact List.cons_ne_nil _ _
  · rw [if_neg hi]
    exact natDigits_ne_nil _

/-- `padStart8` output is nonempty whenever its input is. -/
theorem padStart8_ne_nil {s : List Char} (h : s ≠ []) : padStart8 s ≠ [] := by
  rw [padStart8]
  intro hcontra
  exact h (List.append_eq_nil.mp hcontra).2

/-- Characters of `padStart8` are pad zeros or input characters. -/
theorem mem_padStart8 {s : List Char} {c : Char} (h : c ∈ padStart8 s) :
    c = '0' ∨ c ∈ s := by
  rw [padStart8] at h
  rcases List.mem_append.mp h with h1 | h2
  · exact Or.inl (List.eq_of_mem_replicate h1)
  · exact Or.inr h2

/-- The generated ids of `addTextsToLibrary` never contain a quote, comma or
newline, and never start with whitespace anywhere. -/
theorem padded_id_chars {i : Int} {c : Char} (h : c ∈ padStart8 (intDigits i)) :
    c ≠ '"' ∧ c ≠ ',' ∧ c ≠ '\n' := by
  rcases mem_padStart8 h with h1 | h2
  · subst h1
    exact ⟨by decide, by decide, by decide⟩
  · rcases mem_intDigits h2 with h3 | h4
    · have := digit_char_ne h3
      exact ⟨this.1, this.2.1, this.2.2.1⟩
    · subst h4
      exact ⟨by decide, by decide, by decide⟩

/-! ### Membership in formatted rows -/

/-- Characters of `escQuotes` come from the input or are quotes. -/
theorem mem_escQuotes {t : List Char} {c : Char} (h : c ∈ escQuotes t) :
    c ∈ t ∨ c = '"' := by
  induction t with
  | nil => exact absurd h (List.not_mem_nil c)
  | cons a t ih =>
    rw [escQuotes] at h
    by_cases ha : a = '"'
    · rw [if_pos ha] at h
      rcases List.mem_cons.mp h with h1 | h2
      · exact Or.inr h1
      rcases List.mem_cons.mp h2 with h3 | h4
      · exact Or.inr h3
      rcases ih h4 with h5 | h6
      · exact Or.inl (List.mem_cons_of_mem a h5)
      · exact Or.inr h6
    · rw [if_neg ha] at h
      rcases List.mem_cons.mp h with h1 | h2
      · exact Or.inl (by rw [h1]; exact List.mem_cons_self a t)
      rcases ih h2 with h5 | h6
      · exact Or.inl (List.mem_cons_of_mem a h5)
      · exact Or.inr h6

/-- Characters of `joinSep` are the separator or come from a chunk. -/
theorem mem_joinSep {sep : Char} {xs : List (List Char)} {c : Char}
    (h : c ∈ joinSep sep xs) : c = sep ∨ ∃ x ∈ xs, c ∈ x := by
  induction xs with
  | nil => exact absurd h (List.not_mem_nil c)
  | cons x xs ih =>
    cases xs with
    | nil => exact Or.inr ⟨x, List.mem_cons_self x [], h⟩
    | cons y ys =>
      rw [show joinSep sep (x :: y :: ys) = x ++ sep :: joinSep sep (y :: ys) from rfl] at h
      rcases List.mem_append.mp h with h1 | h2
      · exact Or.inr ⟨x, List.mem_cons_self x _, h1⟩
      rcases List.mem_cons.mp h2 with h3 | h4
      · exact Or.inl h3
      rcases ih h4 with h5 | ⟨z, hz, hcz⟩
      · exact Or.inl h5
      · exact Or.inr ⟨z, List.mem_cons_of_mem x hz, hcz⟩

/-- Characters of a serialized JSON array are brackets, commas, or come from
a serialized element. -/
theorem mem_jsonArr {ν : Type} (numToStr : ν → List Char) {l : List ν} {c : Char}
    (h : c ∈ jsonArr numToStr l) :
    c = '[' ∨ c = ']' ∨ c = ',' ∨ ∃ x ∈ l, c ∈ numToStr x := by
  rw [jsonArr] at h
  rcases List.mem_cons.mp h with h1 | h2
  · exact Or.inl h1
  rcases List.mem_append.mp h2 with h3 | h4
  · rcases mem_joinSep h3 with h5 | ⟨x, hx, hcx⟩
    · exact Or.inr (Or.inr (Or.inl h5))
    · rcases List.mem_map.mp hx with ⟨v, hv, hveq⟩
      exact Or.inr (Or.inr (Or.inr ⟨v, hv, hveq ▸ hcx⟩))
  · exact Or.inr (Or.inl (List.mem_singleton.mp h4))

/-- Characters of a formatted row come from the id, the text, a serialized
element of the embedding, or are CSV/JSON punctuation. -/
theorem mem_formatCSVRow {ν : Type} (numToStr : ν → List Char) (id text : List Char)
    (emb : Option (List ν)) {c : Char} (h : c ∈ formatCSVRow numToStr id text emb) :
    c ∈ id ∨ c ∈ text ∨ c = ',' ∨ c = '"' ∨ c = '[' ∨ c = ']' ∨
      ∃ l, emb = some l ∧ ∃ x ∈ l, c ∈ numToStr x := by
  rw [formatCSVRow.eq_def] at h
  rcases List.mem_append.mp h with h1 | h2
  · exact Or.inl h1
  rcases List.mem_cons.mp h2 with hcm | h3
  · exact Or.inr (Or.inr (Or.inl hcm))
  rcases List.mem_cons.mp h3 with hq | h4
  · exact Or.inr (Or.inr (Or.inr (Or.inl hq)))
  rcases List.mem_append.mp h4 with h5 | h6
  · rcases mem_escQuotes h5 with ht | hq
    · exact Or.inr (Or.inl ht)
    · exact Or.inr (Or.inr (Or.inr (Or.inl hq)))
  rcases List.mem_cons.mp h6 with hq | h7
  · exact Or.inr (Or.inr (Or.inr (Or.inl hq)))
  rcases List.mem_cons.mp h7 with hcm | h8
  · exact Or.inr (Or.inr (Or.inl hcm))
  cases emb with
  | none =>
    dsimp only at h8
    rcases List.mem_cons.mp h8 with hq | h9
    · exact Or.inr (Or.inr (Or.inr (Or.inl hq)))
    · exact Or.inr (Or.inr (Or.inr (Or.inl (List.mem_singleton.mp h9))))
  | some l =>
    dsimp only at h8
    by_cases hl : l.isEmpty
    · rw [if_pos hl] at h8
      rcases List.mem_cons.mp h8 with hq | h9
      · exact Or.inr (Or.inr (Or.inr (Or.inl hq)))
      · exact Or.inr (Or.inr (Or.inr (Or.inl (List.mem_singleton.mp h9))))
    · rw [if_neg hl] at h8
      rcases List.mem_cons.mp h8 with hq | h9
      · exact Or.inr (Or.inr (Or.inr (Or.inl hq)))
      rcases List.mem_append.mp h9 with h10 | h11
      · rcases mem_escQuotes h10 with hj | hq
        · rcases mem_jsonArr numToStr hj with hb | hb | hb | ⟨x, hx, hcx⟩
          · exact Or.inr (Or.inr (Or.inr (Or.inr (Or.inl hb))))
          · exact Or.inr (Or.inr (Or.inr (Or.inr (Or.inr (Or.inl hb)))))
          · exact Or.inr (Or.inr (Or.inl hb))
          · exact Or.inr (Or.inr (Or.inr (Or.inr (Or.inr (Or.inr ⟨l, rfl, x, hx, hcx⟩)))))
        · exact Or.inr (Or.inr (Or.inr (Or.inl hq)))
      · exact Or.inr (Or.inr (Or.inr (Or.inl (List.mem_singleton.mp h11))))

/-- Every formatted row contains a quote. -/
theorem quote_mem_formatCSVRow {ν : Type} (numToStr : ν → List Char)
    (id text : List Char) (emb : Option (List ν)) :
    '"' ∈ formatCSVRow numToStr id text emb := by
  rw [formatCSVRow.eq_def]
  exact List.mem_append_right id (List.mem_cons_of_mem ',' (List.mem_cons_self '"' _))

/-- A formatted row is never empty. -/
theorem formatCSVRow_ne_nil {ν : Type} (numToStr : ν → List Char)
    (id text : List Char) (emb : Option (List ν)) :
    formatCSVRow numToStr id text emb ≠ [] := by
  intro hcontra
  rw [formatCSVRow.eq_def] at hcontra
  rcases List.append_eq_nil.mp hcontra with ⟨_, h2⟩
  exact List.noConfusion h2

/-! ### The row loop on well-formed rows -/

/-- A serialized JSON array cell parses back as a kept embedding. -/
theorem rowEmb_json {ν : Type} (numToStr : ν → List Char) (numParse : List Char → Option ν)
    (emb : List ν) (hembne : emb ≠ [])
    (hrt : ∀ x, numParse (numToStr x) = some x) (hne : ∀ x, numToStr x ≠ [])
    (hcm : ∀ x, ',' ∉ numToStr x) :
    rowEmb numParse (jsonArr numToStr emb) = some emb := by
  have hqm : '[' ∈ jsonArr numToStr emb := by
    rw [jsonArr]
    exact List.mem_cons_self _ _
  have hhd : jsonArr numToStr emb ≠ ['"', '"'] := by
    rw [jsonArr]
    intro hcontra
    injection hcontra with h1 h2
    exact absurd h1 (by decide)
  unfold rowEmb
  rw [show (jsonArr numToStr emb).isEmpty = false from by rw [jsonArr]; rfl,
    if_neg Bool.false_ne_true,
    isEmpty_false_of_ne (trimCh_ne_nil hqm (by decide)), if_neg Bool.false_ne_true,
    if_neg hhd,
    parseJsonNumArray_jsonArr numToStr numParse emb hembne hrt hne hcm]
  dsimp only
  rw [isEmpty_false_of_ne hembne, if_neg Bool.false_ne_true]

/-- One loop iteration on a row with an embedding: the document and its
stored embedding are appended; nothing is marked as needing computing. -/
theorem parseStep_full {ν : Type} (numToStr : ν → List Char)
    (numParse : List Char → Option ν) (st : ParsedLib ν) (id text : List Char)
    (emb : List ν)
    (hid : ∀ c ∈ id, c ≠ '"' ∧ c ≠ ',') (hidne : id ≠ [])
    (htext : text ≠ []) (htr : trimCh text = text) (hembne : emb ≠ [])
    (hrt : ∀ x, numParse (numToStr x) = some x) (hne : ∀ x, numToStr x ≠ [])
    (hcm : ∀ x, ',' ∉ numToStr x) :
    parseStep numParse st (formatCSVRow numToStr id text (some emb)) =
      ParsedLib.mk (st.docs ++ [(id, text)]) (st.embs ++ [some emb])
        st.needTexts st.needIdxs := by
  have hfields2 : parseCSVRow (formatCSVRow numToStr id text (some emb)) =
      [id, text, jsonArr numToStr emb] :=
    parseCSVRow_format numToStr id text (some emb) hid
      (fun l h => (Option.some.inj h) ▸ hembne)
  unfold parseStep
  rw [isEmpty_false_of_ne (trimCh_ne_nil (quote_mem_formatCSVRow numToStr id text (some emb))
      (by decide)), if_neg Bool.false_ne_true, hfields2]
  show (if text.isEmpty = true then st
        else ParsedLib.mk
          (st.docs ++ [(if id.isEmpty = true then natDigits (st.docs.length + 1) else id,
            trimCh text)])
          (st.embs ++ [rowEmb numParse (jsonArr numToStr emb)])
          (if (rowEmb numParse (jsonArr numToStr emb)).isSome = true then st.needTexts
           else st.needTexts ++ [trimCh text])
          (if (rowEmb numParse (jsonArr numToStr emb)).isSome = true then st.needIdxs
           else st.needIdxs ++ [st.docs.length])) =
      ParsedLib.mk (st.docs ++ [(id, text)]) (st.embs ++ [some emb])
        st.needTexts st.needIdxs
  rw [isEmpty_false_of_ne htext, if_neg Bool.false_ne_true,
    isEmpty_false_of_ne hidne, if_neg Bool.false_ne_true,
    rowEmb_json numToStr numParse emb hembne hrt hne hcm,
    Option.isSome_some, if_pos rfl, if_pos rfl, htr]

/-- One loop iteration on a row with an empty embedding cell: the document
is appended with no embedding, and its text and position are marked as
needing computing. -/
theorem parseStep_needy {ν : Type} (numToStr : ν → List Char)
    (numParse : List Char → Option ν) (st : ParsedLib ν) (id text : List Char)
    (hid : ∀ c ∈ id, c ≠ '"' ∧ c ≠ ',') (hidne : id ≠ [])
    (htext : text ≠ []) (htr : trimCh text = text) :
    parseStep numParse st (formatCSVRow numToStr id text none) =
      ParsedLib.mk (st.docs ++ [(id, text)]) (st.embs ++ [(none : Option (List ν))])
        (st.needTexts ++ [text]) (st.needIdxs ++ [st.docs.length]) := by
  have hfields2 : parseCSVRow (formatCSVRow numToStr id text (none : Option (List ν))) =
      [id, text, []] :=
    parseCSVRow_format numToStr id text none hid (fun l h => Option.noConfusion h)
  unfold parseStep
  rw [isEmpty_false_of_ne (trimCh_ne_nil
      (quote_mem_formatCSVRow numToStr id text (none : Option (List ν))) (by decide)),
    if_neg Bool.false_ne_true, hfields2]
  show (if text.isEmpty = true then st
        else ParsedLib.mk
          (st.docs ++ [(if id.isEmpty = true then natDigits (st.docs.length + 1) else id,
            trimCh text)])
          (st.embs ++ [rowEmb numParse ([] : List Char)])
          (if (rowEmb numParse ([] : List Char) : Option (List ν)).isSome = true then st.needTexts
           else st.needTexts ++ [trimCh text])
          (if (rowEmb numParse ([] : List Char) : Option (List ν)).isSome = true then st.needIdxs
           else st.needIdxs ++ [st.docs.length])) =
      ParsedLib.mk (st.docs ++ [(id, text)]) (st.embs ++ [(none : Option (List ν))])
        (st.needTexts ++ [text]) (st.needIdxs ++ [st.docs.length])
  rw [isEmpty_false_of_ne htext, if_neg Bool.false_ne_true,
    isEmpty_false_of_ne hidne, if_neg Bool.false_ne_true,
    show rowEmb numParse ([] : List Char) = (none : Option (List ν)) from rfl,
    Option.isSome_none, if_neg Bool.false_ne_true, if_neg Bool.false_ne_true, htr]

/-- The row loop does nothing on no rows. -/
theorem parseLines_nil {ν : Type} (numParse : List Char → Option ν) (st : ParsedLib ν) :
    parseLines numParse [] st = st := rfl

/-- The row loop processes the head row first. -/
theorem parseLines_cons {ν : Type} (numParse : List Char → Option ν) (line : List Char)
    (rest : List (List Char)) (st : ParsedLib ν) :
    parseLines numParse (line :: rest) st =
      parseLines numParse rest (parseStep numParse st line) := rfl

/-- The row loop over a concatenation runs the two halves in sequence. -/
theorem parseLines_append {ν : Type} (numParse : List Char → Option ν)
    (l1 l2 : List (List Char)) (st : ParsedLib ν) :
    parseLines numParse (l1 ++ l2) st = parseLines numParse l2 (parseLines numParse l1 st) :=
  List.foldl_append _ _ _ _

/-- `enumIdx` preserves length. -/
theorem enumIdx_length {α : Type} : ∀ (n : Nat) (l : List α), (enumIdx n l).length = l.length
  | _, [] => rfl
  | n, _ :: xs => congrArg Nat.succ (enumIdx_length (n + 1) xs)

/-- The second components of `enumIdx` are the original list. -/
theorem enumIdx_map_snd {α : Type} : ∀ (n : Nat) (l : List α),
    (enumIdx n l).map Prod.snd = l
  | _, [] => rfl
  | n, x :: xs => congrArg (List.cons x) (enumIdx_map_snd (n + 1) xs)

/-- The second component of an `enumIdx` entry is a list member. -/
theorem enumIdx_snd_mem {α : Type} : ∀ (n : Nat) (l : List α) (q : Nat × α),
    q ∈ enumIdx n l → q.2 ∈ l := by
  intro n l
  induction l generalizing n with
  | nil => intro q hq; exact absurd hq (List.not_mem_nil q)
  | cons x xs ih =>
    intro q hq
    rcases List.mem_cons.mp hq with h1 | h2
    · rw [h1]
      exact List.mem_cons_self x xs
    · exact List.mem_cons_of_mem x (ih (n + 1) q h2)

/-- The row loop over fully-embedded formatted rows appends every document
with its stored embedding; nothing is marked as needing computing. -/
theorem parseLines_full_rows {ν : Type} (numToStr : ν → List Char)
    (numParse : List Char → Option ν)
    (hrt : ∀ x, numParse (numToStr x) = some x) (hne : ∀ x, numToStr x ≠ [])
    (hcm : ∀ x, ',' ∉ numToStr x)
    (rows : List ((List Char × List Char) × List ν))
    (hrows : ∀ r ∈ rows, r.1.1 ≠ [] ∧ (∀ c ∈ r.1.1, c ≠ '"' ∧ c ≠ ',') ∧
      r.1.2 ≠ [] ∧ trimCh r.1.2 = r.1.2 ∧ r.2 ≠ []) :
    ∀ st : ParsedLib ν,
      parseLines numParse
          (rows.map (fun r => formatCSVRow numToStr r.1.1 r.1.2 (some r.2))) st =
        ParsedLib.mk (st.docs ++ rows.map Prod.fst)
          (st.embs ++ rows.map (fun r => some r.2)) st.needTexts st.needIdxs := by
  induction rows with
  | nil =>
    intro st
    rw [List.map_nil, parseLines_nil, List.map_nil, List.map_nil, List.append_nil,
      List.append_nil]
  | cons r rs ih =>
    intro st
    have hr := hrows r (List.mem_cons_self r rs)
    rw [List.map_cons, parseLines_cons,
      parseStep_full numToStr numParse st r.1.1 r.1.2 r.2 hr.2.1 hr.1 hr.2.2.1
        hr.2.2.2.1 hr.2.2.2.2 hrt hne hcm,
      ih (fun x hx => hrows x (List.mem_cons_of_mem r hx))]
    dsimp only
    rw [List.append_assoc, List.append_assoc]
    rfl

/-- The row loop over formatted rows with empty embedding cells appends
every document with no embedding, and marks exactly these texts and their
positions (consecutively from the current count) as needing computing. -/
theorem parseLines_needy_rows {ν : Type} (numToStr : ν → List Char)
    (numParse : List Char → Option ν)
    (prs : List (List Char × List Char))
    (hprs : ∀ r ∈ prs, r.1 ≠ [] ∧ (∀ c ∈ r.1, c ≠ '"' ∧ c ≠ ',') ∧
      r.2 ≠ [] ∧ trimCh r.2 = r.2) :
    ∀ st : ParsedLib ν,
      parseLines numParse (prs.map (fun r => formatCSVRow numToStr r.1 r.2 none)) st =
        ParsedLib.mk (st.docs ++ prs)
          (st.embs ++ prs.map (fun _ => (none : Option (List ν))))
          (st.needTexts ++ prs.map Prod.snd)
          (st.needIdxs ++ (List.range prs.length).map (fun i => st.docs.length + i)) := by
  induction prs with
  | nil =>
    intro st
    rw [List.map_nil, parseLines_nil, List.map_nil, List.map_nil, List.length_nil,
      List.range_zero, List.map_nil, List.append_nil, List.append_nil, List.append_nil,
      List.append_nil]
  | cons r rs ih =>
    intro st
    have hr := hprs r (List.mem_cons_self r rs)
    rw [List.map_cons, parseLines_cons,
      parseStep_needy numToStr numParse st r.1 r.2 hr.2.1 hr.1 hr.2.2.1 hr.2.2.2,
      ih (fun x hx => hprs x (List.mem_cons_of_mem r hx))]
    dsimp only
    have hidx : (List.range rs.length).map
          (fun i => (st.docs ++ [(r.1, r.2)]).length + i)
        = (List.range rs.length).map (fun i => st.docs.length + 1 + i) :=
      List.map_congr_left (fun i _ => by simp)
    rw [hidx]
    have hrange : st.docs.length ::
          (List.range rs.length).map (fun i => st.docs.length + 1 + i)
        = (List.range (rs.length + 1)).map (fun i => st.docs.length + i) := by
      rw [List.range_succ_eq_map, List.map_cons, List.map_map]
      refine congrArg₂ List.cons (by omega) ?_
      exact List.map_congr_left (fun i _ => by
        show st.docs.length + 1 + i = st.docs.length + (i + 1)
        omega)
    rw [List.length_cons, ← hrange]
    rw [List.append_assoc, List.append_assoc, List.append_assoc, List.append_assoc]
    rfl

/-! ### Splitting the written file back into lines -/

/-- Joining rows distributes over concatenation. -/
theorem joinRows_append (a b : List (List Char)) :
    joinRows (a ++ b) = joinRows a ++ joinRows b := by
  induction a with
  | nil => rfl
  | cons r rs ih =>
    rw [List.cons_append]
    show r ++ '\n' :: joinRows (rs ++ b) = (r ++ '\n' :: joinRows rs) ++ joinRows b
    rw [ih, List.append_assoc]
    rfl

/-- Splitting newline-joined rows on newlines recovers the rows (plus the
empty trailing chunk). -/
theorem splitCh_joinRows (rows : List (List Char)) (h : ∀ r ∈ rows, '\n' ∉ r) :
    splitCh '\n' (joinRows rows) = rows ++ [[]] := by
  induction rows with
  | nil => rfl
  | cons r rs ih =>
    show splitCh '\n' (r ++ '\n' :: joinRows rs) = (r :: rs) ++ [[]]
    rw [splitCh_append_sep (h r (List.mem_cons_self r rs)),
      ih (fun x hx => h x (List.mem_cons_of_mem r hx))]
    rfl

/-- A header line plus newline-terminated nonempty rows splits into exactly
the header and the rows. -/
theorem csvLines_mk (rows : List (List Char))
    (h : ∀ r ∈ rows, '\n' ∉ r ∧ r ≠ []) :
    csvLines (csvHeader ++ '\n' :: joinRows rows) = csvHeader :: rows := by
  unfold csvLines
  rw [splitCh_append_sep (by decide), splitCh_joinRows rows (fun r hr => (h r hr).1),
    List.filter_cons_of_pos (by decide), List.filter_append]
  rw [show List.filter (fun l => !l.isEmpty) [([] : List Char)] = [] from rfl,
    List.append_nil, List.filter_eq_self.mpr]
  intro r hr
  rw [isEmpty_false_of_ne (h r hr).2]
  rfl

/-- Anything followed by a newline-terminated block ends in a newline. -/
theorem joinRows_getLast (rows : List (List Char)) :
    ∀ l : List Char, (l ++ '\n' :: joinRows rows).getLast? = some '\n' := by
  induction rows with
  | nil => intro l; exact List.getLast?_concat l
  | cons r rs ih =>
    intro l
    rw [show l ++ '\n' :: joinRows (r :: rs) = (l ++ '\n' :: r) ++ '\n' :: joinRows rs by
      rw [List.append_assoc]; rfl]
    exact ih (l ++ '\n' :: r)

/-! ### Splicing the recomputed embeddings into their positions -/

/-- Setting at an offset past a prefix sets inside the suffix. -/
theorem set_append_offset {α : Type} (A : List α) (B : List α) (i : Nat) (v : α) :
    (A ++ B).set (A.length + i) v = A ++ B.set i v := by
  induction A with
  | nil => rw [List.nil_append, List.nil_append, List.length_nil, Nat.zero_add]
  | cons a as ih =>
    show (a :: (as ++ B)).set ((a :: as).length + i) v = a :: (as ++ B.set i v)
    rw [show (a :: as).length + i = (as.length + i) + 1 by rw [List.length_cons]; omega]
    show a :: (as ++ B).set (as.length + i) v = a :: (as ++ B.set i v)
    exact congrArg (List.cons a) ih

/-- One step of the splice loop. -/
theorem spliceEmbs_cons {ν : Type} (E : List (Option (List ν))) (k : Nat) (ks : List Nat)
    (v : List ν) (vs : List (List ν)) :
    spliceEmbs E (k :: ks) (v :: vs) = spliceEmbs (E.set k (some v)) ks vs := rfl

/-- Splicing `M` new embeddings at the `M` trailing empty positions fills
exactly those positions, leaving the prefix untouched. -/
theorem spliceEmbs_replicate {ν : Type} (news : List (List ν)) :
    ∀ A : List (Option (List ν)),
      spliceEmbs (A ++ List.replicate news.length none)
          ((List.range news.length).map (fun i => A.length + i)) news =
        A ++ news.map some := by
  induction news with
  | nil =>
    intro A
    show A ++ [] = A ++ []
    rfl
  | cons v vs ih =>
    intro A
    rw [show (v :: vs).length = vs.length + 1 from rfl, List.range_succ_eq_map,
      List.map_cons, List.map_map, List.replicate_succ, spliceEmbs_cons,
      show A.length + 0 = A.length from rfl]
    have hset : (A ++ none :: List.replicate vs.length none).set A.length (some v)
        = A ++ some v :: List.replicate vs.length none := by
      have h0 := set_append_offset A (none :: List.replicate vs.length none) 0 (some v)
      rw [Nat.add_zero] at h0
      exact h0
    rw [hset, List.append_cons]
    have hmap : (List.range vs.length).map ((fun i => A.length + i) ∘ Nat.succ)
        = (List.range vs.length).map (fun i => (A ++ [some v]).length + i) :=
      List.map_congr_left (fun i _ => by
        show A.length + (i + 1) = (A ++ [some v]).length + i
        rw [List.length_append]
        simp
        omega)
    rw [hmap, ih (A ++ [some v]), List.append_assoc]
    rfl

/-- Keeping the present values of an all-present list is the identity. -/
theorem filterMap_map_some {ν : Type} (l : List (List ν)) :
    (l.map some).filterMap (fun e => e) = l := by
  induction l with
  | nil => rfl
  | cons v vs ih =>
    rw [List.map_cons, List.filterMap_cons]
    dsimp only
    rw [ih]

/-! ### The coordinator always succeeds with an always-successful provider -/

/-- With a provider that answers every call successfully, one batch succeeds
on the first attempt. -/
theorem tryBatch_ok_total {τ V : Type} (p : Provider τ V) (f : τ → V)
    (hp : ∀ c b, p c b = EmbedResp.ok (b.map f)) (batch : List τ)
    (hb : batch.isEmpty = false) (rl : Nat) (hrl : 1 ≤ rl) (ri : Nat) (st : RunState) :
    tryBatch p batch rl ri st =
      (Except.ok (batch.map f), RunState.mk (st.calls + 1) st.log) := by
  cases rl with
  | zero => omega
  | succ n =>
    rw [tryBatch, if_neg (by rw [hb]; exact Bool.false_ne_true), hp st.calls batch]

/-- With a provider that answers every call successfully, the batch loop
returns every input embedded, in order. -/
theorem runBatches_ok_total {τ V : Type} (p : Provider τ V) (f : τ → V)
    (opts : BatchOptions) (hp : ∀ c b, p c b = EmbedResp.ok (b.map f))
    (hbs : 1 ≤ opts.batchSize) (hmr : 1 ≤ opts.maxRetries) :
    ∀ (fuel : Nat) (texts : List τ), texts.length ≤ fuel → ∀ st : RunState,
      ∃ stF : RunState, runBatches p opts fuel texts st = (Except.ok (texts.map f), stF) := by
  intro fuel
  induction fuel with
  | zero =>
    intro texts hlen st
    cases texts with
    | nil => exact ⟨st, rfl⟩
    | cons t ts => rw [List.length_cons] at hlen; omega
  | succ n ih =>
    intro texts hlen st
    cases texts with
    | nil => exact ⟨st, rfl⟩
    | cons t ts =>
      have hbatch : ((t :: ts).take opts.batchSize).isEmpty = false := by
        cases hb : opts.batchSize with
        | zero => rw [hb] at hbs; omega
        | succ m => rw [List.take_succ_cons]; rfl
      rw [runBatches, tryBatch_ok_total p f hp _ hbatch opts.maxRetries hmr 0 st]
      dsimp only
      have hrest : ((t :: ts).drop opts.batchSize).length ≤ n := by
        rw [List.length_drop, List.length_cons]
        rw [List.length_cons] at hlen
        omega
      obtain ⟨stF, hrec⟩ := ih ((t :: ts).drop opts.batchSize) hrest _
      rw [hrec]
      refine ⟨stF, ?_⟩
      dsimp only
      rw [← List.map_append, List.take_append_drop]

/-! ### C5: incremental append -/

/-- The CSV content of a fully-embedded store: one row per document, each
with its serialized embedding. -/
def libCsv {ν : Type} (numToStr : ν → List Char)
    (rows : List ((List Char × List Char) × List ν)) : List Char :=
  mkCsvContent numToStr (rows.map Prod.fst) (rows.map (fun r => some r.2))

/-- The (id, text) pairs `addTextsToLibrary` appends: fresh sequential ids
above the current maximum, zero-padded to 8 digits. -/
def newIdPairs {ν : Type} (numToStr : ν → List Char)
    (rows : List ((List Char × List Char) × List ν)) (newTexts : List (List Char)) :
    List (List Char × List Char) :=
  (enumIdx 0 newTexts).map (fun q =>
    (padStart8 (intDigits (maxIdOf (libCsv numToStr rows) + q.1 + 1)), q.2))

/-- The stored CSV splits into the header and one formatted row per document. -/
theorem libCsv_eq {ν : Type} (numToStr : ν → List Char)
    (rows : List ((List Char × List Char) × List ν)) :
    libCsv numToStr rows = csvHeader ++ '\n' ::
      joinRows (rows.map (fun r => formatCSVRow numToStr r.1.1 r.1.2 (some r.2))) := by
  unfold libCsv mkCsvContent
  rw [List.zip_map', List.map_map]
  refine congrArg (fun l => csvHeader ++ '\n' :: joinRows l) ?_
  exact List.map_congr_left (fun r _ => rfl)

/-- C5: starting from a 3-field store of `N` documents that all already have
embeddings, appending `M` new texts and reloading succeeds, returns the `N`
old documents followed by the `M` new ones (with fresh padded sequential
ids), and yields `N + M` embeddings of which the first `N` are exactly the
stored ones — unchanged and never recomputed — and the last `M` are the
provider's embeddings of the new texts; moreover the loader marks exactly
the `M` new texts as needing computation.  The provider embeds every batch
by `f`; the number serializer round-trips, is nonempty, and stays clear of
separators; ids and texts are newline/carriage-return-free, texts are
nonempty and trimmed, ids are nonempty and comma/quote-free. -/
theorem c5_incremental_append {ν : Type} (p : Provider (List Char) (List ν))
    (numToStr : ν → List Char) (numParse : List Char → Option ν)
    (f : List Char → List ν)
    (rows : List ((List Char × List Char) × List ν)) (newTexts : List (List Char))
    (hp : ∀ c b, p c b = EmbedResp.ok (b.map f))
    (hrt : ∀ x, numParse (numToStr x) = some x)
    (hne : ∀ x, numToStr x ≠ [])
    (hch : ∀ x, ∀ c ∈ numToStr x, c ≠ ',' ∧ c ≠ '\n' ∧ c ≠ '\r')
    (hrows : ∀ r ∈ rows, r.1.1 ≠ [] ∧
      (∀ c ∈ r.1.1, c ≠ '"' ∧ c ≠ ',' ∧ c ≠ '\n' ∧ c ≠ '\r') ∧
      r.1.2 ≠ [] ∧ trimCh r.1.2 = r.1.2 ∧ (∀ c ∈ r.1.2, c ≠ '\n' ∧ c ≠ '\r') ∧ r.2 ≠ [])
    (hnew : ∀ t ∈ newTexts, t ≠ [] ∧ trimCh t = t ∧ ∀ c ∈ t, c ≠ '\n' ∧ c ≠ '\r') :
    ∃ res : LoadResult ν,
      addTextsToLibrary p numToStr numParse (libCsv numToStr rows) newTexts =
        Except.ok res ∧
      res.docs = rows.map Prod.fst ++ newIdPairs numToStr rows newTexts ∧
      res.finalEmbs = rows.map Prod.snd ++ newTexts.map f ∧
      (parseLines numParse
          ((csvLines (appendTexts numToStr (libCsv numToStr rows) newTexts)).tail)
          (emptyParsed ν)).needTexts = newTexts := by
  have hcm : ∀ x, ',' ∉ numToStr x := fun x hmem => ((hch x ',' hmem).1) rfl
  have hold : ∀ r ∈ rows, r.1.1 ≠ [] ∧ (∀ c ∈ r.1.1, c ≠ '"' ∧ c ≠ ',') ∧
      r.1.2 ≠ [] ∧ trimCh r.1.2 = r.1.2 ∧ r.2 ≠ [] := by
    intro r hr
    obtain ⟨h1, h2, h3, h4, h5, h6⟩ := hrows r hr
    exact ⟨h1, fun c hc => ⟨(h2 c hc).1, (h2 c hc).2.1⟩, h3, h4, h6⟩
  have hnewPairs : ∀ r ∈ newIdPairs numToStr rows newTexts,
      r.1 ≠ [] ∧ (∀ c ∈ r.1, c ≠ '"' ∧ c ≠ ',') ∧ r.2 ≠ [] ∧ trimCh r.2 = r.2 := by
    unfold newIdPairs
    intro r hr
    rcases List.mem_map.mp hr with ⟨q, hq, hrq⟩
    have ht := hnew q.2 (enumIdx_snd_mem 0 newTexts q hq)
    rw [← hrq]
    exact ⟨padStart8_ne_nil (intDigits_ne_nil _),
      fun c hc => ⟨(padded_id_chars hc).1, (padded_id_chars hc).2.1⟩, ht.1, ht.2.1⟩
  have holdNL : ∀ s ∈ rows.map (fun r => formatCSVRow numToStr r.1.1 r.1.2 (some r.2)),
      '\n' ∉ s ∧ s ≠ [] := by
    intro s hs
    rcases List.mem_map.mp hs with ⟨r, hr, hsr⟩
    rw [← hsr]
    refine ⟨?_, formatCSVRow_ne_nil _ _ _ _⟩
    intro hcmem
    rcases mem_formatCSVRow numToStr r.1.1 r.1.2 (some r.2) hcmem with
      h | h | h | h | h | h | ⟨l, hl, x, hx, hcx⟩
    · exact ((hrows r hr).2.1 '\n' h).2.2.1 rfl
    · exact ((hrows r hr).2.2.2.2.1 '\n' h).1 rfl
    · exact absurd h (by decide)
    · exact absurd h (by decide)
    · exact absurd h (by decide)
    · exact absurd h (by decide)
    · exact (hch x '\n' hcx).2.1 rfl
  have hnewNL : ∀ s ∈ (newIdPairs numToStr rows newTexts).map
      (fun r => formatCSVRow numToStr r.1 r.2 none), '\n' ∉ s ∧ s ≠ [] := by
    intro s hs
    rcases List.mem_map.mp hs with ⟨r, hr, hsr⟩
    rw [← hsr]
    refine ⟨?_, formatCSVRow_ne_nil _ _ _ _⟩
    intro hcmem
    rcases mem_formatCSVRow numToStr r.1 r.2 none hcmem with
      h | h | h | h | h | h | ⟨l, hl, x, hx, hcx⟩
    · unfold newIdPairs at hr
      rcases List.mem_map.mp hr with ⟨q, hq, hrq⟩
      rw [← hrq] at h
      exact (padded_id_chars h).2.2 rfl
    · unfold newIdPairs at hr
      rcases List.mem_map.mp hr with ⟨q, hq, hrq⟩
      rw [← hrq] at h
      have ht := hnew q.2 (enumIdx_snd_mem 0 newTexts q hq)
      exact (ht.2.2 '\n' h).1 rfl
    · exact absurd h (by decide)
    · exact absurd h (by decide)
    · exact absurd h (by decide)
    · exact absurd h (by decide)
    · exact Option.noConfusion hl
  have hend : (libCsv numToStr rows).getLast? = some '\n' := by
    rw [libCsv_eq]
    exact joinRows_getLast _ csvHeader
  have hmaps : (enumIdx 0 newTexts).map (fun q => formatCSVRow numToStr
        (padStart8 (intDigits (maxIdOf (libCsv numToStr rows) + q.1 + 1))) q.2 none)
      = (newIdPairs numToStr rows newTexts).map
          (fun r => formatCSVRow numToStr r.1 r.2 none) := by
    unfold newIdPairs
    rw [List.map_map]
    exact List.map_congr_left (fun q _ => rfl)
  have happ : appendTexts numToStr (libCsv numToStr rows) newTexts =
      libCsv numToStr rows ++ joinRows ((newIdPairs numToStr rows newTexts).map
        (fun r => formatCSVRow numToStr r.1 r.2 none)) := by
    unfold appendTexts
    rw [if_pos hend, hmaps]
  have hlines : csvLines (appendTexts numToStr (libCsv numToStr rows) newTexts) =
      csvHeader :: (rows.map (fun r => formatCSVRow numToStr r.1.1 r.1.2 (some r.2)) ++
        (newIdPairs numToStr rows newTexts).map
          (fun r => formatCSVRow numToStr r.1 r.2 none)) := by
    rw [happ, libCsv_eq]
    rw [show (csvHeader ++ '\n' ::
        joinRows (rows.map (fun r => formatCSVRow numToStr r.1.1 r.1.2 (some r.2)))) ++
        joinRows ((newIdPairs numToStr rows newTexts).map
          (fun r => formatCSVRow numToStr r.1 r.2 none)) =
      csvHeader ++ '\n' ::
        (joinRows (rows.map (fun r => formatCSVRow numToStr r.1.1 r.1.2 (some r.2))) ++
         joinRows ((newIdPairs numToStr rows newTexts).map
           (fun r => formatCSVRow numToStr r.1 r.2 none))) from by
      rw [List.append_assoc]
      rfl]
    rw [← joinRows_append]
    refine csvLines_mk _ ?_
    intro r hr2
    rcases List.mem_append.mp hr2 with h | h
    · exact holdNL r h
    · exact hnewNL r h
  have hstate : parseLines numParse
      (rows.map (fun r => formatCSVRow numToStr r.1.1 r.1.2 (some r.2)) ++
        (newIdPairs numToStr rows newTexts).map
          (fun r => formatCSVRow numToStr r.1 r.2 none)) (emptyParsed ν) =
      ParsedLib.mk (rows.map Prod.fst ++ newIdPairs numToStr rows newTexts)
        (rows.map (fun r => some r.2) ++
          (newIdPairs numToStr rows newTexts).map (fun _ => none))
        ((newIdPairs numToStr rows newTexts).map Prod.snd)
        ((List.range (newIdPairs numToStr rows newTexts).length).map
          (fun i => (rows.map Prod.fst).length + i)) := by
    rw [parseLines_append,
      parseLines_full_rows numToStr numParse hrt hne hcm rows hold,
      parseLines_needy_rows numToStr numParse (newIdPairs numToStr rows newTexts)
        hnewPairs]
    dsimp only
    rfl
  have hsnd : (newIdPairs numToStr rows newTexts).map Prod.snd = newTexts := by
    unfold newIdPairs
    rw [List.map_map]
    exact enumIdx_map_snd 0 newTexts
  have hlen_np : (newIdPairs numToStr rows newTexts).length = newTexts.length := by
    unfold newIdPairs
    rw [List.length_map]
    exact enumIdx_length 0 newTexts
  have hOS : rows.map (fun r => some r.2) = (rows.map Prod.snd).map some :=
    (List.map_map some Prod.snd rows).symm
  unfold addTextsToLibrary loadLibraryEmbeddings
  dsimp only
  rw [hlines]
  simp only [List.headD_cons, List.tail_cons]
  rw [show includesStr csvHeader ("embedding".toList) = true from by decide,
    Bool.not_true, if_neg Bool.false_ne_true, hstate]
  dsimp only
  rw [hsnd]
  by_cases hMT : newTexts = []
  · subst hMT
    rw [if_pos (show (List.isEmpty ([] : List (List Char))) = true from rfl)]
    simp only [show newIdPairs numToStr rows ([] : List (List Char)) = [] from by
      unfold newIdPairs; rfl, List.map_nil, List.append_nil, hOS, filterMap_map_some,
      List.length_map]
    rw [if_neg (show ¬(rows.length ≠ rows.length) from fun hcontra => hcontra rfl)]
    refine ⟨_, rfl, ?_, ?_, ?_⟩ <;> trivial
  · rw [isEmpty_false_of_ne hMT, if_neg Bool.false_ne_true]
    obtain ⟨stF, hgen⟩ := runBatches_ok_total p f defaultOptions hp (by decide) (by decide)
      newTexts.length newTexts (le_refl _) (RunState.mk 0 (initLog defaultOptions))
    have hgen2 : (generateBatchEmbeddings p defaultOptions newTexts).1 =
        Except.ok (newTexts.map f) := by
      unfold generateBatchEmbeddings
      rw [hgen]
    rw [hgen2]
    dsimp only
    rw [List.length_map,
      if_neg (show ¬(newTexts.length ≠ newTexts.length) from fun hcontra => hcontra rfl)]
    have hsplice : spliceEmbs
        (rows.map (fun r => some r.2) ++
          (newIdPairs numToStr rows newTexts).map (fun _ => none))
        ((List.range (newIdPairs numToStr rows newTexts).length).map
          (fun i => (rows.map Prod.fst).length + i)) (newTexts.map f) =
        rows.map (fun r => some r.2) ++ (newTexts.map f).map some := by
      have h1 : (newIdPairs numToStr rows newTexts).map
            (fun _ => (none : Option (List ν))) =
          List.replicate (newTexts.map f).length none := by
        rw [List.map_const', hlen_np, List.length_map]
      have h2 : (List.range (newIdPairs numToStr rows newTexts).length).map
            (fun i => (rows.map Prod.fst).length + i) =
          (List.range (newTexts.map f).length).map
            (fun i => (rows.map (fun r => some r.2)).length + i) := by
        rw [hlen_np, List.length_map, List.length_map, List.length_map]
      rw [h1, h2]
      exact spliceEmbs_replicate (newTexts.map f) (rows.map (fun r => some r.2))
    rw [hsplice, hOS, ← List.map_append, filterMap_map_some]
    rw [List.length_append, List.length_append, List.length_map, List.length_map,
      List.length_map, hlen_np]
    rw [if_neg (show ¬(rows.length + newTexts.length ≠ rows.length + newTexts.length)
      from fun hcontra => hcontra rfl)]
    exact ⟨_, rfl, rfl, rfl, rfl⟩

/-- A provider that embeds every text as `[true]`, for concrete evaluation. -/
def pOk : Provider (List Char) (List Bool) := fun _ b => EmbedResp.ok (b.map (fun _ => [true]))

/-- The incremental append evaluated on a concrete one-document store plus
one new text: the old embedding survives byte-for-byte and the new row gets
a fresh zero-padded id and a freshly computed embedding. -/
theorem c5_incremental_append_witness :
    ((addTextsToLibrary pOk bstr bparse
        (libCsv bstr [((['1'], ['a']), [false])]) [['b']]).map LoadResult.docs =
      Except.ok [(['1'], ['a']), (['0', '0', '0', '0', '0', '0', '0', '2'], ['b'])]) ∧
    ((addTextsToLibrary pOk bstr bparse
        (libCsv bstr [((['1'], ['a']), [false])]) [['b']]).map LoadResult.finalEmbs =
      Except.ok [[false], [true]]) := by
  obtain ⟨res, ha, hd, hf, hn⟩ := c5_incremental_append pOk bstr bparse (fun _ => [true])
    [((['1'], ['a']), [false])] [['b']] (fun c b => rfl) (by decide) (by decide)
    (by decide) (by decide) (by decide)
  rw [ha]
  constructor
  · show Except.ok res.docs = _
    rw [hd]
    decide
  · show Except.ok res.finalEmbs = _
    rw [hf]
    decide

end SGI
